import Mathlib

/-!
Shallow embedding of the Dobprotocol stellar "splitter" distribution contract
(`contracts/src` together with `contracts/splitter/src`, one crate).

Modelling conventions:
* Addresses (`soroban_sdk::Address`) are natural numbers (`Addr`).
* `i128` values are `Int`; the contract's arithmetic is far below the i128
  bounds on all paths the claims exercise, except the one explicitly checked
  multiplication in `buy_shares`, which is modelled by `checked_mul` against
  the real i128 bounds.  Rust's `i128` division truncates toward zero, hence
  all divisions are `Int.tdiv`.
* Contract storage (`e.storage()`) becomes the `Store` structure; map-valued
  keys are association lists.  TTL bumps (`extend_ttl`) have no semantic
  content and are dropped.  A missing `Shareholders` / `ActiveListings` vector
  reads as the empty vector in the source, so those fields are plain lists.
* `require_auth` / `require_admin` authorization is an external collaborator
  and is modelled as granted.
* The external token collaborator becomes the `ledger` field mapping
  (owner, token) to a balance, with `token_transfer` moving value.
* Each `execute` entry point returns `(Option Error) × Store`: the error (if
  any) together with the storage as the function body left it, so that the
  order of writes relative to validation inside one invocation is preserved.
  (On-chain, a returned error makes the host discard the writes.)
* `env.events().publish` appends to the write-only `events` list.
-/

abbrev Addr := Nat

/-- Association-list lookup (contract storage `get` for a map-valued key). -/
def alookup {α β : Type} [DecidableEq α] : List (α × β) → α → Option β
  | [], _ => none
  | (k', v) :: t, k => if k' = k then some v else alookup t k

/-- Association-list update (contract storage `set`): replace the first binding
of the key, or append a new binding. -/
def aset {α β : Type} [DecidableEq α] : List (α × β) → α → β → List (α × β)
  | [], k, v => [(k, v)]
  | (k', v') :: t, k, v => if k' = k then (k, v) :: t else (k', v') :: aset t k v

/-- Association-list removal (contract storage `remove`). -/
def aremove {α β : Type} [DecidableEq α] (l : List (α × β)) (k : α) : List (α × β) :=
  l.filter fun p => decide (p.1 ≠ k)

/-- Removes the first occurrence of an address from a vector: the
scan-for-first-index-then-remove pattern used on the shareholder and
active-listing vectors.  When the address is absent the vector is unchanged
(the source skips the save in that case, with the same result). -/
def remove_first : List Addr → Addr → List Addr
  | [], _ => []
  | x :: t, a => if x = a then t else x :: remove_first t a

def I128_MIN : Int := -(2 ^ 127)

def I128_MAX : Int := 2 ^ 127 - 1

/-- Rust `i128::checked_mul`. -/
def checked_mul (a b : Int) : Option Int :=
  if a * b < I128_MIN ∨ I128_MAX < a * b then none else some (a * b)

structure ShareDataKey where
  shareholder : Addr
  share : Int
deriving DecidableEq, Repr

structure ConfigDataKey where
  admin : Addr
  mutable : Bool
deriving DecidableEq, Repr

structure CommissionConfig where
  recipient : Addr
  buy_rate_bps : Int
  distribution_rate_bps : Int
deriving DecidableEq, Repr

structure SaleListingDataKey where
  seller : Addr
  shares_for_sale : Int
  price_per_share : Int
  payment_token : Addr
deriving DecidableEq, Repr

inductive Error where
  | NotInitialized
  | AlreadyInitialized
  | Unauthorized
  | ContractLocked
  | LowShareCount
  | InvalidShareTotal
  | ZeroTransferAmount
  | TransferAmountAboveBalance
  | TransferAmountAboveUnusedBalance
  | ZeroWithdrawalAmount
  | WithdrawalAmountAboveAllocation
  | NoSharesToSell
  | NoActiveListing
  | InsufficientSharesInListing
  | InvalidPrice
  | InvalidShareAmount
  | CannotBuyOwnShares
  | NoSharesToTransfer
  | InsufficientSharesToTransfer
  | CannotTransferToSelf
  | Overflow
  | NegativeShareAmount
  | DuplicateShareholder
  | InvalidCommissionRate
deriving DecidableEq, Repr

inductive Event where
  | initDone (admin : Addr) (count : Nat) (mutFlag : Bool)
  | sharesUpdated (count : Nat)
  | shareTransfer (sender recipient : Addr) (amount : Int)
  | listed (seller : Addr) (amount price : Int) (payment : Addr)
  | canceled (seller : Addr)
  | sold (seller buyer : Addr) (amount total : Int) (payment : Addr)
  | distCommission (token recipient : Addr) (amount : Int)
  | distShare (holder token : Addr) (amount : Int)
  | distDust (holder token : Addr) (amount : Int)
  | distTotal (token : Addr) (total : Int)
deriving DecidableEq, Repr

/-- The contract's persistent state plus the external collaborators the claims
need: the token ledger and the event log.  `self` is the contract's own address
(`env.current_contract_address()`). -/
structure Store where
  self : Addr
  config : Option ConfigDataKey
  shareholders : List Addr
  shares : List (Addr × Int)
  allocations : List ((Addr × Addr) × Int)
  totalAllocations : List (Addr × Int)
  listings : List (Addr × SaleListingDataKey)
  activeListings : List Addr
  commission : Option CommissionConfig
  ledger : List ((Addr × Addr) × Int)
  events : List Event
deriving DecidableEq, Repr

/-- Stand-in for the hard-coded default commission address string. -/
def DEFAULT_COMMISSION_ADDRESS : Addr := 424242

def BUY_COMMISSION_BPS : Int := 150

def DISTRIBUTION_COMMISSION_BPS : Int := 50

def emit (s : Store) (ev : Event) : Store := { s with events := s.events ++ [ev] }

/-- Stored `ShareDataKey` records carry the shareholder again as a field, equal
to the storage key; only the share amount is semantically relevant, so
`get_share` returns the amount. -/
def ShareDataKey.save_share (s : Store) (shareholder : Addr) (share : Int) : Store :=
  { s with shares := aset s.shares shareholder share }

def ShareDataKey.get_share (s : Store) (shareholder : Addr) : Option Int :=
  alookup s.shares shareholder

def ShareDataKey.remove_share (s : Store) (shareholder : Addr) : Store :=
  { s with shares := aremove s.shares shareholder }

def ShareDataKey.save_shareholders (s : Store) (shareholders : List Addr) : Store :=
  { s with shareholders := shareholders }

def ShareDataKey.get_shareholders (s : Store) : List Addr := s.shareholders

def ShareDataKey.remove_shareholders (s : Store) : Store := { s with shareholders := [] }

/-- The source's `is_contract_locked` actually returns the `mutable` flag
(true while still mutable); the name is kept from the source. -/
def ConfigDataKey.is_contract_locked (s : Store) : Bool :=
  match s.config with
  | some config => config.mutable
  | none => false

def AllocationDataKey.get_allocation (s : Store) (shareholder token : Addr) : Option Int :=
  alookup s.allocations (shareholder, token)

def AllocationDataKey.get_total_allocation (s : Store) (token : Addr) : Option Int :=
  alookup s.totalAllocations token

def AllocationDataKey.save_total_allocation (s : Store) (token : Addr) (total : Int) : Store :=
  { s with totalAllocations := aset s.totalAllocations token total }

def AllocationDataKey.remove_total_allocation (s : Store) (token : Addr) : Store :=
  { s with totalAllocations := aremove s.totalAllocations token }

def AllocationDataKey.save_allocation (s : Store) (shareholder token : Addr)
    (new_allocation : Int) : Store :=
  let old_allocation := (AllocationDataKey.get_allocation s shareholder token).getD 0
  let delta := new_allocation - old_allocation
  let s1 :=
    if delta ≠ 0 then
      match AllocationDataKey.get_total_allocation s token with
      | some total_allocation =>
          if total_allocation + delta ≤ 0 then AllocationDataKey.remove_total_allocation s token
          else AllocationDataKey.save_total_allocation s token (total_allocation + delta)
      | none =>
          if delta > 0 then AllocationDataKey.save_total_allocation s token delta else s
    else s
  { s1 with allocations := aset s1.allocations (shareholder, token) new_allocation }

/-- The source unwraps `get_allocation` when a total-allocation record exists;
the `none` result models that panic (no caller in the repository reaches it). -/
def AllocationDataKey.remove_allocation (s : Store) (shareholder token : Addr) :
    Option Store :=
  let s1? :=
    match AllocationDataKey.get_total_allocation s token with
    | some total_allocation =>
        match AllocationDataKey.get_allocation s shareholder token with
        | some allocation =>
            some (if total_allocation - allocation = 0 then
                    AllocationDataKey.remove_total_allocation s token
                  else
                    AllocationDataKey.save_total_allocation s token
                      (total_allocation - allocation))
        | none => none
    | none => some s
  s1?.map fun s1 => { s1 with allocations := aremove s1.allocations (shareholder, token) }

def SaleListingDataKey.get_active_listings (s : Store) : List Addr := s.activeListings

def SaleListingDataKey.add_to_active_listings (s : Store) (seller : Addr) : Store :=
  if seller ∈ SaleListingDataKey.get_active_listings s then s
  else { s with activeListings := s.activeListings ++ [seller] }

def SaleListingDataKey.remove_from_active_listings (s : Store) (seller : Addr) : Store :=
  { s with activeListings := remove_first s.activeListings seller }

def SaleListingDataKey.save_listing (s : Store) (seller : Addr)
    (shares_for_sale price_per_share : Int) (payment_token : Addr) : Store :=
  let listing : SaleListingDataKey := ⟨seller, shares_for_sale, price_per_share, payment_token⟩
  let s := { s with listings := aset s.listings seller listing }
  SaleListingDataKey.add_to_active_listings s seller

def SaleListingDataKey.get_listing (s : Store) (seller : Addr) : Option SaleListingDataKey :=
  alookup s.listings seller

def SaleListingDataKey.remove_listing (s : Store) (seller : Addr) : Store :=
  let s := { s with listings := aremove s.listings seller }
  SaleListingDataKey.remove_from_active_listings s seller

def CommissionConfig.default_config : CommissionConfig :=
  ⟨DEFAULT_COMMISSION_ADDRESS, BUY_COMMISSION_BPS, DISTRIBUTION_COMMISSION_BPS⟩

/-- Reads the commission config, initializing the stored default on first
access (the read mutates the store in that case, as in the source). -/
def CommissionConfig.get (s : Store) : CommissionConfig × Store :=
  match s.commission with
  | some config => (config, s)
  | none =>
      (CommissionConfig.default_config,
       { s with commission := some CommissionConfig.default_config })

/-- Commission formula `(amount * rate_bps) / 10000` with Rust i128 division. -/
def CommissionConfig.calculate_commission (amount rate_bps : Int) : Int :=
  Int.tdiv (amount * rate_bps) 10000

def token_balance (s : Store) (owner token : Addr) : Int :=
  (alookup s.ledger (owner, token)).getD 0

def token_transfer (s : Store) (token sender recipient : Addr) (amount : Int) : Store :=
  let l1 := aset s.ledger (sender, token) (token_balance s sender token - amount)
  let s1 := { s with ledger := l1 }
  let l2 := aset s1.ledger (recipient, token) (token_balance s1 recipient token + amount)
  { s1 with ledger := l2 }

/-- The inner j-loop of `check_shares`: does a later record repeat this
shareholder? -/
def helpers.dup_after (shareholder : Addr) (rest : List ShareDataKey) : Bool :=
  rest.any fun r => decide (r.shareholder = shareholder)

/-- The indexed loop of `check_shares`, accumulating the running total. -/
def helpers.check_shares_go : List ShareDataKey → Int → Except Error Int
  | [], total => .ok total
  | r :: rest, total =>
      if r.share < 0 then .error .NegativeShareAmount
      else if helpers.dup_after r.shareholder rest then .error .DuplicateShareholder
      else helpers.check_shares_go rest (total + r.share)

/-- Validation of a share list (`helpers.rs::check_shares`): at least one
record, no negative amount, no duplicate shareholder, total exactly 10000. -/
def helpers.check_shares (shares : List ShareDataKey) : Option Error :=
  if shares.length < 1 then some .LowShareCount
  else
    match helpers.check_shares_go shares 0 with
    | .error e => some e
    | .ok total => if total ≠ 10000 then some .InvalidShareTotal else none

/-- Persists every record and the shareholder-order vector
(`helpers.rs::update_shares`). -/
def helpers.update_shares (s : Store) (shares : List ShareDataKey) : Store :=
  let s := shares.foldl (fun acc r => ShareDataKey.save_share acc r.shareholder r.share) s
  ShareDataKey.save_shareholders s (shares.map fun r => r.shareholder)

/-- Removes every shareholder's record and the shareholder vector
(`helpers.rs::reset_shares`). -/
def helpers.reset_shares (s : Store) : Store :=
  let s := (ShareDataKey.get_shareholders s).foldl
    (fun acc shareholder => ShareDataKey.remove_share acc shareholder) s
  ShareDataKey.remove_shareholders s

abbrev OpResult := Option Error × Store

/-- The `init` entry point (`splitter/src/logic/execute/init.rs`).  Note the
source persists the config before running `check_shares`. -/
def execute.init (s : Store) (admin : Addr) (shares : List ShareDataKey)
    (mutFlag : Bool) : OpResult :=
  if s.config.isSome then (some .AlreadyInitialized, s)
  else
    let s := { s with config := some ⟨admin, mutFlag⟩ }
    match helpers.check_shares shares with
    | some e => (some e, s)
    | none =>
        let s := helpers.update_shares s shares
        (none, emit s (.initDone admin shares.length mutFlag))

/-- The `update_shares` entry point (`src/logic/execute/update_shares.rs`). -/
def execute.update_shares (s : Store) (shares : List ShareDataKey) : OpResult :=
  if s.config.isNone then (some .NotInitialized, s)
  else if ¬ ConfigDataKey.is_contract_locked s then (some .ContractLocked, s)
  else
    match helpers.check_shares shares with
    | some e => (some e, s)
    | none =>
        let s := helpers.reset_shares s
        let s := helpers.update_shares s shares
        (none, emit s (.sharesUpdated shares.length))

/-- The `transfer_shares` entry point
(`splitter/src/logic/execute/transfer_shares.rs`). -/
def execute.transfer_shares (s : Store) (sender recipient : Addr) (amount : Int) : OpResult :=
  if s.config.isNone then (some .NotInitialized, s)
  else if sender = recipient then (some .CannotTransferToSelf, s)
  else if amount ≤ 0 then (some .InvalidShareAmount, s)
  else
    match ShareDataKey.get_share s sender with
    | none => (some .NoSharesToTransfer, s)
    | some sender_share =>
        if sender_share < amount then (some .InsufficientSharesToTransfer, s)
        else
          let new_sender_share := sender_share - amount
          let recipient_share := ShareDataKey.get_share s recipient
          let is_new_shareholder := recipient_share.isNone
          let new_recipient_share :=
            match recipient_share with
            | some r => r + amount
            | none => amount
          let s :=
            if new_sender_share = 0 then
              let s := ShareDataKey.remove_share s sender
              ShareDataKey.save_shareholders s
                (remove_first (ShareDataKey.get_shareholders s) sender)
            else ShareDataKey.save_share s sender new_sender_share
          let s := ShareDataKey.save_share s recipient new_recipient_share
          let s :=
            if is_new_shareholder then
              ShareDataKey.save_shareholders s (ShareDataKey.get_shareholders s ++ [recipient])
            else s
          (none, emit s (.shareTransfer sender recipient amount))

/-- The `list_shares_for_sale` entry point
(`splitter/src/logic/execute/list_shares_for_sale.rs`). -/
def execute.list_shares_for_sale (s : Store) (seller : Addr)
    (shares_amount price_per_share : Int) (payment_token : Addr) : OpResult :=
  if shares_amount ≤ 0 then (some .InvalidShareAmount, s)
  else if price_per_share ≤ 0 then (some .InvalidPrice, s)
  else
    match ShareDataKey.get_share s seller with
    | none => (some .NoSharesToSell, s)
    | some seller_share =>
        if seller_share < shares_amount then (some .NoSharesToSell, s)
        else
          let s := SaleListingDataKey.save_listing s seller shares_amount
            price_per_share payment_token
          (none, emit s (.listed seller shares_amount price_per_share payment_token))

/-- The `cancel_listing` entry point (`src/logic/execute/cancel_listing.rs`). -/
def execute.cancel_listing (s : Store) (seller : Addr) : OpResult :=
  match SaleListingDataKey.get_listing s seller with
  | none => (some .NoActiveListing, s)
  | some _ =>
      let s := SaleListingDataKey.remove_listing s seller
      (none, emit s (.canceled seller))

/-- The `buy_shares` entry point (`src/logic/execute/buy_shares.rs`),
preserving the source's order: payment transfers happen before the seller's
share record is even read, and the seller's balance is checked only against
the listing amount. -/
def execute.buy_shares (s : Store) (buyer seller : Addr) (shares_amount : Int) : OpResult :=
  if shares_amount ≤ 0 then (some .InvalidShareAmount, s)
  else if buyer = seller then (some .CannotBuyOwnShares, s)
  else
    match SaleListingDataKey.get_listing s seller with
    | none => (some .NoActiveListing, s)
    | some listing =>
        if shares_amount > listing.shares_for_sale then (some .InsufficientSharesInListing, s)
        else
          match checked_mul shares_amount listing.price_per_share with
          | none => (some .Overflow, s)
          | some total_price =>
              let cs := CommissionConfig.get s
              let commission_config := cs.1
              let s := cs.2
              let commission := CommissionConfig.calculate_commission total_price
                commission_config.buy_rate_bps
              let seller_receives := total_price - commission
              let s :=
                if seller_receives > 0 then
                  token_transfer s listing.payment_token buyer seller seller_receives
                else s
              let s :=
                if commission > 0 then
                  token_transfer s listing.payment_token buyer commission_config.recipient
                    commission
                else s
              match ShareDataKey.get_share s seller with
              | none => (some .NoSharesToSell, s)
              | some seller_share =>
                  let new_seller_share := seller_share - shares_amount
                  let s :=
                    if new_seller_share > 0 then
                      ShareDataKey.save_share s seller new_seller_share
                    else
                      let s := ShareDataKey.remove_share s seller
                      ShareDataKey.save_shareholders s
                        (remove_first (ShareDataKey.get_shareholders s) seller)
                  let bs :=
                    match ShareDataKey.get_share s buyer with
                    | some buyer_share => (s, buyer_share + shares_amount)
                    | none =>
                        (ShareDataKey.save_shareholders s
                          (ShareDataKey.get_shareholders s ++ [buyer]), shares_amount)
                  let s := ShareDataKey.save_share bs.1 buyer bs.2
                  let remaining_shares := listing.shares_for_sale - shares_amount
                  let s :=
                    if remaining_shares > 0 then
                      SaleListingDataKey.save_listing s seller remaining_shares
                        listing.price_per_share listing.payment_token
                    else SaleListingDataKey.remove_listing s seller
                  (none, emit s
                    (.sold seller buyer shares_amount total_price listing.payment_token))

/-- The shareholder loop of `distribute_tokens`: credits each holder's floor
share, accumulates `total_distributed`, and tracks the first strictly-largest
holder seen (`src/logic/execute/distribute_tokens.rs`, lines 65-100). -/
def execute.dist_loop (tok : Addr) (afs : Int) :
    Store → List Addr → Int → Option Addr → Int → Store × Int × Option Addr × Int
  | s, [], td, largest, lshare => (s, td, largest, lshare)
  | s, h :: rest, td, largest, lshare =>
      match ShareDataKey.get_share s h with
      | none => execute.dist_loop tok afs s rest td largest lshare
      | some share =>
          let pair := if share > lshare then (some h, share) else (largest, lshare)
          let amount := Int.tdiv (afs * share) 10000
          if amount > 0 then
            let allocation := (AllocationDataKey.get_allocation s h tok).getD 0
            let s := AllocationDataKey.save_allocation s h tok (allocation + amount)
            let s := emit s (.distShare h tok amount)
            execute.dist_loop tok afs s rest (td + amount) pair.1 pair.2
          else execute.dist_loop tok afs s rest td pair.1 pair.2

/-- The `distribute_tokens` entry point
(`src/logic/execute/distribute_tokens.rs`). -/
def execute.distribute_tokens (s : Store) (token_address : Addr) : OpResult :=
  if s.config.isNone then (some .NotInitialized, s)
  else
    let balance := token_balance s s.self token_address
    let total_allocated := (AllocationDataKey.get_total_allocation s token_address).getD 0
    let distributable := balance - total_allocated
    if distributable ≤ 0 then (none, s)
    else
      let cs := CommissionConfig.get s
      let commission_config := cs.1
      let s := cs.2
      let commission := CommissionConfig.calculate_commission distributable
        commission_config.distribution_rate_bps
      let s :=
        if commission > 0 then
          emit (token_transfer s token_address s.self commission_config.recipient commission)
            (.distCommission token_address commission_config.recipient commission)
        else s
      let amount_for_shareholders := distributable - commission
      if amount_for_shareholders ≤ 0 then (none, s)
      else
        let shareholders := ShareDataKey.get_shareholders s
        let res := execute.dist_loop token_address amount_for_shareholders s shareholders 0 none 0
        let s := res.1
        let td := res.2.1
        let largest := res.2.2.1
        let dust := amount_for_shareholders - td
        let fin :=
          if dust > 0 then
            match largest with
            | some w =>
                let allocation := (AllocationDataKey.get_allocation s w token_address).getD 0
                let s := AllocationDataKey.save_allocation s w token_address (allocation + dust)
                (emit s (.distDust w token_address dust), td + dust)
            | none => (s, td)
          else (s, td)
        (none, emit fin.1 (.distTotal token_address fin.2))

/-- Modelled from the spec: the implementation file
`contracts/src/logic/execute/withdraw_allocation.rs` is not under src/ (only
its declaration in `mod.rs` and `contract.rs` are).  Behaviour follows spec
sections 4.2 and 6: fail with ZeroWithdrawalAmount when the amount is not
positive, with WithdrawalAmountAboveAllocation when it exceeds the holder's
current allocation; otherwise debit the allocation (destroying the record via
`remove_allocation`, which adjusts the per-asset total, when the value returns
to zero) and transfer the tokens from the pool to the holder. -/
def execute.withdraw_allocation (s : Store) (token_address shareholder : Addr)
    (amount : Int) : OpResult :=
  if s.config.isNone then (some .NotInitialized, s)
  else if amount ≤ 0 then (some .ZeroWithdrawalAmount, s)
  else
    let allocation := (AllocationDataKey.get_allocation s shareholder token_address).getD 0
    if allocation < amount then (some .WithdrawalAmountAboveAllocation, s)
    else
      let s :=
        if allocation - amount = 0 then
          match AllocationDataKey.remove_allocation s shareholder token_address with
          | some s1 => s1
          | none => s
        else AllocationDataKey.save_allocation s shareholder token_address (allocation - amount)
      (none, token_transfer s token_address s.self shareholder amount)

/-- Sum of the stored share amounts over all `ShareRecord`s. -/
def shareRecordsTotal (s : Store) : Int := (s.shares.map fun p => p.2).sum

/-- Sum of the share amounts as the distribution loop sees them: over the
shareholder-order vector, an absent record counting 0. -/
def holderSharesTotal (s : Store) : Int :=
  (s.shareholders.map fun h => (ShareDataKey.get_share s h).getD 0).sum

/-- Spec-side description of the dust recipient: the first holder in registry
order whose share amount is positive and maximal among all holders in the
vector (later holders with an equal amount never win). -/
def specDustRecipient (a : Addr → Option Int) (hs : List Addr) : Option Addr :=
  hs.find? fun h => decide (0 < (a h).getD 0 ∧ ∀ h2 ∈ hs, (a h2).getD 0 ≤ (a h).getD 0)

/-- Sum of the values bound to keys of one token in an allocation list. -/
def sumTok : List ((Addr × Addr) × Int) → Addr → Int
  | [], _ => 0
  | p :: t, token => (if p.1.2 = token then p.2 else 0) + sumTok t token

/-- Sum of the per-holder allocation records stored for one token. -/
def sumAllocations (s : Store) (token : Addr) : Int :=
  sumTok s.allocations token

/-- Storage well-formedness: map-valued storage has unique keys (true of real
contract storage by construction). -/
def StoreWF (s : Store) : Prop :=
  (s.allocations.map fun p => p.1).Nodup ∧ (s.totalAllocations.map fun p => p.1).Nodup

/-- The AllocationLedger invariant for one asset: every stored per-holder
allocation for the token is positive, and the `TotalAllocationRecord` equals
their sum, being absent exactly when the sum is zero. -/
def allocInvariant (s : Store) (token : Addr) : Prop :=
  (∀ p ∈ s.allocations, p.1.2 = token → 0 < p.2) ∧
  AllocationDataKey.get_total_allocation s token =
    (if sumAllocations s token = 0 then none else some (sumAllocations s token))

/-- An i128 value in range. -/
def in_i128_range (x : Int) : Prop := I128_MIN ≤ x ∧ x ≤ I128_MAX

/-- A convenient all-zero store to build concrete scenarios from. -/
def emptyStore : Store :=
  { self := 0, config := none, shareholders := [], shares := [], allocations := []
  , totalAllocations := [], listings := [], activeListings := [], commission := none
  , ledger := [], events := [] }

/-! ### Association-list lemmas -/

theorem alookup_aset_self {α β : Type} [DecidableEq α] (l : List (α × β)) (k : α) (v : β) :
    alookup (aset l k v) k = some v := by
  induction l with
  | nil => simp [aset, alookup]
  | cons p t ih =>
      by_cases h : p.1 = k
      · simp [aset, h, alookup]
      · simp [aset, h, alookup, ih]

theorem alookup_aset_ne {α β : Type} [DecidableEq α] (l : List (α × β)) (k k' : α) (v : β)
    (h : k' ≠ k) : alookup (aset l k v) k' = alookup l k' := by
  induction l with
  | nil =>
      simp only [aset, alookup]
      rw [if_neg (Ne.symm h)]
  | cons p t ih =>
      by_cases hp : p.1 = k
      · simp only [aset, if_pos hp, alookup]
        rw [if_neg (Ne.symm h), if_neg (fun hh : p.1 = k' => (Ne.symm h) (hp ▸ hh))]
      · simp only [aset, if_neg hp, alookup, ih]

theorem alookup_aremove_self {α β : Type} [DecidableEq α] (l : List (α × β)) (k : α) :
    alookup (aremove l k) k = none := by
  induction l with
  | nil => rfl
  | cons p t ih =>
      by_cases hp : p.1 = k
      · simpa [aremove, List.filter_cons, hp] using ih
      · simpa [aremove, List.filter_cons, hp, alookup] using ih

theorem alookup_aremove_ne {α β : Type} [DecidableEq α] (l : List (α × β)) (k k' : α)
    (h : k' ≠ k) : alookup (aremove l k) k' = alookup l k' := by
  induction l with
  | nil => rfl
  | cons p t ih =>
      by_cases hp : p.1 = k
      · have hne : ¬ p.1 = k' := fun hh => (Ne.symm h) (hp ▸ hh)
        simpa [aremove, List.filter_cons, hp, alookup, hne, Ne.symm h] using ih
      · by_cases hp' : p.1 = k'
        · simp [aremove, List.filter_cons, hp, alookup, hp', h]
        · simpa [aremove, List.filter_cons, hp, alookup, hp'] using ih

theorem mem_aset {α β : Type} [DecidableEq α] (l : List (α × β)) (k : α) (v : β)
    (p : α × β) (hp : p ∈ aset l k v) : p = (k, v) ∨ p ∈ l := by
  induction l with
  | nil => simpa [aset] using hp
  | cons q t ih =>
      by_cases hq : q.1 = k
      · simp only [aset, if_pos hq, List.mem_cons] at hp
        rcases hp with hp | hp
        · exact Or.inl hp
        · exact Or.inr (List.mem_cons_of_mem q hp)
      · simp only [aset, if_neg hq, List.mem_cons] at hp
        rcases hp with hp | hp
        · exact Or.inr (hp ▸ List.mem_cons_self q t)
        · rcases ih hp with hh | hh
          · exact Or.inl hh
          · exact Or.inr (List.mem_cons_of_mem q hh)

theorem mem_aremove {α β : Type} [DecidableEq α] (l : List (α × β)) (k : α)
    (p : α × β) (hp : p ∈ aremove l k) : p ∈ l :=
  List.mem_of_mem_filter hp

theorem keys_aset_nodup {α β : Type} [DecidableEq α] (l : List (α × β)) (k : α) (v : β)
    (h : (l.map fun p => p.1).Nodup) : ((aset l k v).map fun p => p.1).Nodup := by
  induction l with
  | nil => simp [aset]
  | cons q t ih =>
      simp only [List.map_cons, List.nodup_cons] at h
      by_cases hq : q.1 = k
      · simp only [aset, if_pos hq, List.map_cons, List.nodup_cons]
        exact ⟨hq ▸ h.1, h.2⟩
      · simp only [aset, if_neg hq, List.map_cons, List.nodup_cons]
        refine ⟨fun hmem => ?_, ih h.2⟩
        simp only [List.mem_map] at hmem
        rcases hmem with ⟨p, hpmem, hpk⟩
        rcases mem_aset t k v p hpmem with rfl | hpt
        · exact hq hpk.symm
        · exact h.1 (List.mem_map.mpr ⟨p, hpt, hpk⟩)

theorem keys_aremove_nodup {α β : Type} [DecidableEq α] (l : List (α × β)) (k : α)
    (h : (l.map fun p => p.1).Nodup) : ((aremove l k).map fun p => p.1).Nodup :=
  h.sublist (((List.filter_sublist l)).map (fun p => p.1))

theorem alookup_mem {α β : Type} [DecidableEq α] (l : List (α × β)) (k : α) (v : β)
    (h : alookup l k = some v) : (k, v) ∈ l := by
  induction l with
  | nil => simp [alookup] at h
  | cons q t ih =>
      rcases q with ⟨qk, qv⟩
      by_cases hq : qk = k
      · simp only [alookup, if_pos hq] at h
        cases h
        subst hq
        exact List.mem_cons_self _ _
      · simp only [alookup, if_neg hq] at h
        exact List.mem_cons_of_mem _ (ih h)

theorem sumTok_aset_eq (l : List ((Addr × Addr) × Int)) (k : Addr × Addr) (v : Int)
    (token : Addr) (htok : k.2 = token) :
    sumTok (aset l k v) token = sumTok l token - (alookup l k).getD 0 + v := by
  induction l with
  | nil => simp [sumTok, aset, alookup, htok]
  | cons q t ih =>
      by_cases hq : q.1 = k
      · have hqt : q.1.2 = token := hq ▸ htok
        simp only [aset, if_pos hq, sumTok, if_pos htok, if_pos hqt, alookup]
        simp only [Option.getD_some]
        ring
      · simp only [aset, if_neg hq, sumTok, alookup]
        rw [ih]
        ring

theorem filterTok_aset_ne (l : List ((Addr × Addr) × Int)) (k : Addr × Addr) (v : Int)
    (token : Addr) (htok : k.2 ≠ token) :
    sumTok (aset l k v) token = sumTok l token := by
  induction l with
  | nil => simp [sumTok, aset, htok]
  | cons q t ih =>
      by_cases hq : q.1 = k
      · have hqt : ¬ q.1.2 = token := hq ▸ htok
        simp only [aset, if_pos hq, sumTok, if_neg htok, if_neg hqt]
      · simp only [aset, if_neg hq, sumTok, ih]

theorem sumTok_aremove_eq (l : List ((Addr × Addr) × Int)) (k : Addr × Addr) (v : Int)
    (token : Addr) (htok : k.2 = token) (hnd : (l.map fun p => p.1).Nodup)
    (h : alookup l k = some v) :
    sumTok (aremove l k) token = sumTok l token - v := by
  induction l with
  | nil => simp [alookup] at h
  | cons q t ih =>
      simp only [List.map_cons, List.nodup_cons] at hnd
      by_cases hq : q.1 = k
      · simp only [alookup, if_pos hq] at h
        cases h
        have hrem : aremove t k = t := by
          apply List.filter_eq_self.mpr
          intro p hp
          simp only [ne_eq, decide_eq_true_eq]
          intro hk
          exact hnd.1 (List.mem_map.mpr ⟨p, hp, hk.trans hq.symm⟩)
        have hqt : q.1.2 = token := hq ▸ htok
        have : aremove (q :: t) k = aremove t k := by
          simp [aremove, List.filter_cons, hq]
        rw [this, hrem]
        simp only [sumTok, if_pos hqt]
        ring
      · have : aremove (q :: t) k = q :: aremove t k := by
          simp [aremove, List.filter_cons, hq]
        rw [this]
        simp only [sumTok, ih hnd.2 (by simpa [alookup, hq] using h)]
        ring

theorem aremove_eq_of_alookup_none {α β : Type} [DecidableEq α] (l : List (α × β)) (k : α)
    (h : alookup l k = none) : aremove l k = l := by
  induction l with
  | nil => rfl
  | cons q t ih =>
      by_cases hq : q.1 = k
      · simp [alookup, hq] at h
      · simp only [alookup, if_neg hq] at h
        have : aremove (q :: t) k = q :: aremove t k := by
          simp [aremove, List.filter_cons, hq]
        rw [this, ih h]

theorem sumTok_nonneg (l : List ((Addr × Addr) × Int)) (token : Addr)
    (hpos : ∀ p ∈ l, p.1.2 = token → 0 ≤ p.2) : 0 ≤ sumTok l token := by
  induction l with
  | nil => simp [sumTok]
  | cons q t ih =>
      have hq2 := fun p hp ht => hpos p (List.mem_cons_of_mem q hp) ht
      have := ih hq2
      by_cases hqt : q.1.2 = token
      · have := hpos q (List.mem_cons_self q t) hqt
        simp only [sumTok, if_pos hqt]
        omega
      · simp only [sumTok, if_neg hqt]
        omega

theorem value_le_sumTok (l : List ((Addr × Addr) × Int)) (k : Addr × Addr) (v : Int)
    (token : Addr) (htok : k.2 = token)
    (hpos : ∀ p ∈ l, p.1.2 = token → 0 ≤ p.2)
    (h : alookup l k = some v) : v ≤ sumTok l token := by
  induction l with
  | nil => simp [alookup] at h
  | cons q t ih =>
      have hq2 := fun p hp ht => hpos p (List.mem_cons_of_mem q hp) ht
      have hts : 0 ≤ sumTok t token := sumTok_nonneg t token hq2
      by_cases hq : q.1 = k
      · simp only [alookup, if_pos hq] at h
        cases h
        have hqt : q.1.2 = token := hq ▸ htok
        simp only [sumTok, if_pos hqt]
        omega
      · simp only [alookup, if_neg hq] at h
        have := ih hq2 h
        by_cases hqt : q.1.2 = token
        · have := hpos q (List.mem_cons_self q t) hqt
          simp only [sumTok, if_pos hqt]
          omega
        · simp only [sumTok, if_neg hqt]
          omega

/-! ### Arithmetic lemmas about truncating division by 10000 -/

theorem tdiv_ten_thousand_eq (x : Int) (hx : 0 ≤ x) : Int.tdiv x 10000 = x / 10000 := by
  rcases x with n | n
  · rfl
  · exact absurd hx (Int.negSucc_lt_zero n).not_le

theorem tdiv_ten_thousand_nonneg (x : Int) (hx : 0 ≤ x) : 0 ≤ Int.tdiv x 10000 := by
  rw [tdiv_ten_thousand_eq x hx]
  omega

theorem tdiv_add_le (x y : Int) (hx : 0 ≤ x) (hy : 0 ≤ y) :
    Int.tdiv x 10000 + Int.tdiv y 10000 ≤ Int.tdiv (x + y) 10000 := by
  rw [tdiv_ten_thousand_eq x hx, tdiv_ten_thousand_eq y hy,
    tdiv_ten_thousand_eq (x + y) (by omega)]
  omega

theorem tdiv_mono (x y : Int) (hx : 0 ≤ x) (hxy : x ≤ y) :
    Int.tdiv x 10000 ≤ Int.tdiv y 10000 := by
  rw [tdiv_ten_thousand_eq x hx, tdiv_ten_thousand_eq y (by omega)]
  omega

theorem tdiv_mul_cancel (a : Int) (ha : 0 ≤ a) : Int.tdiv (a * 10000) 10000 = a := by
  rw [tdiv_ten_thousand_eq _ (by positivity)]
  omega

theorem calculate_commission_nonneg (amount rate : Int) (ha : 0 ≤ amount) (hr : 0 ≤ rate) :
    0 ≤ CommissionConfig.calculate_commission amount rate :=
  tdiv_ten_thousand_nonneg _ (by positivity)

theorem calculate_commission_lt (amount rate : Int) (ha : 0 < amount) (hr : 0 ≤ rate)
    (hr2 : rate ≤ 5000) : CommissionConfig.calculate_commission amount rate < amount := by
  unfold CommissionConfig.calculate_commission
  rw [tdiv_ten_thousand_eq _ (by positivity)]
  have h3 : amount * rate ≤ 10000 * amount - 1 := by nlinarith
  have h0 : 0 ≤ amount * rate := by positivity
  omega

/-! ### remove_first lemmas -/

theorem remove_first_not_mem (l : List Addr) (a : Addr) (h : l.Nodup) :
    a ∉ remove_first l a := by
  induction l with
  | nil => simp [remove_first]
  | cons x t ih =>
      simp only [List.nodup_cons] at h
      by_cases hx : x = a
      · simp only [remove_first, if_pos hx]
        exact fun hmem => h.1 (hx ▸ hmem)
      · simp only [remove_first, if_neg hx, List.mem_cons]
        rintro (rfl | hmem)
        · exact hx rfl
        · exact ih h.2 hmem

theorem remove_first_of_not_mem (l : List Addr) (a : Addr) (h : a ∉ l) :
    remove_first l a = l := by
  induction l with
  | nil => rfl
  | cons x t ih =>
      simp only [List.mem_cons, not_or] at h
      simp only [remove_first, if_neg (fun hh : x = a => h.1 hh.symm), ih h.2]

/-! ### Stability of storage operations on unrelated Store fields -/

theorem save_allocation_stable (s : Store) (h tok : Addr) (v : Int) :
    (AllocationDataKey.save_allocation s h tok v).self = s.self ∧
    (AllocationDataKey.save_allocation s h tok v).config = s.config ∧
    (AllocationDataKey.save_allocation s h tok v).shareholders = s.shareholders ∧
    (AllocationDataKey.save_allocation s h tok v).shares = s.shares ∧
    (AllocationDataKey.save_allocation s h tok v).listings = s.listings ∧
    (AllocationDataKey.save_allocation s h tok v).activeListings = s.activeListings ∧
    (AllocationDataKey.save_allocation s h tok v).commission = s.commission ∧
    (AllocationDataKey.save_allocation s h tok v).ledger = s.ledger ∧
    (AllocationDataKey.save_allocation s h tok v).events = s.events := by
  unfold AllocationDataKey.save_allocation
  dsimp only
  repeat' split
  all_goals exact ⟨rfl, rfl, rfl, rfl, rfl, rfl, rfl, rfl, rfl⟩

theorem save_allocation_allocations (s : Store) (h tok : Addr) (v : Int) :
    (AllocationDataKey.save_allocation s h tok v).allocations =
      aset s.allocations (h, tok) v := by
  unfold AllocationDataKey.save_allocation
  dsimp only
  repeat' split
  all_goals rfl

theorem save_allocation_total_of_credit (s : Store) (h tok : Addr) (amount : Int)
    (ham : 0 < amount)
    (hT : 0 ≤ (AllocationDataKey.get_total_allocation s tok).getD 0) :
    AllocationDataKey.get_total_allocation
      (AllocationDataKey.save_allocation s h tok
        ((AllocationDataKey.get_allocation s h tok).getD 0 + amount)) tok =
      some ((AllocationDataKey.get_total_allocation s tok).getD 0 + amount) := by
  unfold AllocationDataKey.save_allocation
  dsimp only
  have hdelta : (AllocationDataKey.get_allocation s h tok).getD 0 + amount -
      (AllocationDataKey.get_allocation s h tok).getD 0 = amount := by ring
  rw [hdelta]
  rw [if_pos (by omega : amount ≠ 0)]
  rcases halo : AllocationDataKey.get_total_allocation s tok with _ | T
  · dsimp only
    rw [if_pos (by omega : amount > 0)]
    unfold AllocationDataKey.get_total_allocation AllocationDataKey.save_total_allocation
    dsimp only
    rw [alookup_aset_self]
    simp
  · have hT' : 0 ≤ T := by rw [halo] at hT; simpa using hT
    dsimp only
    rw [if_neg (by omega : ¬ T + amount ≤ 0)]
    unfold AllocationDataKey.get_total_allocation AllocationDataKey.save_total_allocation
    dsimp only
    rw [alookup_aset_self]
    simp

theorem save_allocation_total_ne (s : Store) (h tok : Addr) (v : Int) (t' : Addr)
    (ht : t' ≠ tok) :
    AllocationDataKey.get_total_allocation (AllocationDataKey.save_allocation s h tok v) t' =
      AllocationDataKey.get_total_allocation s t' := by
  unfold AllocationDataKey.save_allocation
  dsimp only
  unfold AllocationDataKey.get_total_allocation AllocationDataKey.save_total_allocation
    AllocationDataKey.remove_total_allocation
  repeat' split
  all_goals simp [alookup_aset_ne _ _ _ _ ht, alookup_aremove_ne _ _ _ ht]

theorem token_transfer_stable (s : Store) (tok sender recipient : Addr) (amount : Int) :
    (token_transfer s tok sender recipient amount).self = s.self ∧
    (token_transfer s tok sender recipient amount).config = s.config ∧
    (token_transfer s tok sender recipient amount).shareholders = s.shareholders ∧
    (token_transfer s tok sender recipient amount).shares = s.shares ∧
    (token_transfer s tok sender recipient amount).allocations = s.allocations ∧
    (token_transfer s tok sender recipient amount).totalAllocations = s.totalAllocations ∧
    (token_transfer s tok sender recipient amount).listings = s.listings ∧
    (token_transfer s tok sender recipient amount).activeListings = s.activeListings ∧
    (token_transfer s tok sender recipient amount).commission = s.commission ∧
    (token_transfer s tok sender recipient amount).events = s.events :=
  ⟨rfl, rfl, rfl, rfl, rfl, rfl, rfl, rfl, rfl, rfl⟩

theorem token_transfer_balance_sender (s : Store) (tok sender recipient : Addr)
    (amount : Int) (h : sender ≠ recipient) :
    token_balance (token_transfer s tok sender recipient amount) sender tok =
      token_balance s sender tok - amount := by
  unfold token_transfer token_balance
  dsimp only
  rw [alookup_aset_ne _ _ _ _ (by simp [h]), alookup_aset_self]
  rfl

theorem token_transfer_balance_recipient (s : Store) (tok sender recipient : Addr)
    (amount : Int) (h : sender ≠ recipient) :
    token_balance (token_transfer s tok sender recipient amount) recipient tok =
      token_balance s recipient tok + amount := by
  unfold token_transfer token_balance
  dsimp only
  rw [alookup_aset_self, alookup_aset_ne _ _ _ _ (by simp [Ne.symm h])]
  rfl

theorem emit_stable (s : Store) (ev : Event) :
    (emit s ev).self = s.self ∧ (emit s ev).config = s.config ∧
    (emit s ev).shareholders = s.shareholders ∧ (emit s ev).shares = s.shares ∧
    (emit s ev).allocations = s.allocations ∧
    (emit s ev).totalAllocations = s.totalAllocations ∧
    (emit s ev).listings = s.listings ∧ (emit s ev).activeListings = s.activeListings ∧
    (emit s ev).commission = s.commission ∧ (emit s ev).ledger = s.ledger :=
  ⟨rfl, rfl, rfl, rfl, rfl, rfl, rfl, rfl, rfl, rfl⟩

theorem save_allocation_shares_eq (s : Store) (h tok : Addr) (v : Int) :
    (AllocationDataKey.save_allocation s h tok v).shares = s.shares :=
  (save_allocation_stable s h tok v).2.2.2.1

theorem get_share_save_allocation (s : Store) (h tok : Addr) (v : Int) (h' : Addr) :
    ShareDataKey.get_share (AllocationDataKey.save_allocation s h tok v) h' =
      ShareDataKey.get_share s h' := by
  unfold ShareDataKey.get_share
  rw [save_allocation_shares_eq]

theorem get_share_emit (s : Store) (ev : Event) (h : Addr) :
    ShareDataKey.get_share (emit s ev) h = ShareDataKey.get_share s h := rfl

theorem save_allocation_totals_formula (s : Store) (h tok : Addr) (v : Int) :
    (AllocationDataKey.save_allocation s h tok v).totalAllocations =
      (if v - (alookup s.allocations (h, tok)).getD 0 ≠ 0 then
         match alookup s.totalAllocations tok with
         | some t =>
             if t + (v - (alookup s.allocations (h, tok)).getD 0) ≤ 0 then
               aremove s.totalAllocations tok
             else aset s.totalAllocations tok (t + (v - (alookup s.allocations (h, tok)).getD 0))
         | none =>
             if v - (alookup s.allocations (h, tok)).getD 0 > 0 then
               aset s.totalAllocations tok (v - (alookup s.allocations (h, tok)).getD 0)
             else s.totalAllocations
       else s.totalAllocations) := by
  unfold AllocationDataKey.save_allocation AllocationDataKey.get_allocation
    AllocationDataKey.get_total_allocation AllocationDataKey.save_total_allocation
    AllocationDataKey.remove_total_allocation
  dsimp only
  repeat' split
  all_goals rfl

/-! ### Distribution-loop lemmas -/

theorem dist_loop_stable (tok : Addr) (afs : Int) :
    ∀ (hs : List Addr) (s : Store) (td : Int) (l : Option Addr) (ls : Int),
    (execute.dist_loop tok afs s hs td l ls).1.self = s.self ∧
    (execute.dist_loop tok afs s hs td l ls).1.config = s.config ∧
    (execute.dist_loop tok afs s hs td l ls).1.shareholders = s.shareholders ∧
    (execute.dist_loop tok afs s hs td l ls).1.shares = s.shares ∧
    (execute.dist_loop tok afs s hs td l ls).1.listings = s.listings ∧
    (execute.dist_loop tok afs s hs td l ls).1.activeListings = s.activeListings ∧
    (execute.dist_loop tok afs s hs td l ls).1.commission = s.commission ∧
    (execute.dist_loop tok afs s hs td l ls).1.ledger = s.ledger := by
  intro hs
  induction hs with
  | nil => intro s td l ls; exact ⟨rfl, rfl, rfl, rfl, rfl, rfl, rfl, rfl⟩
  | cons h rest ih =>
      intro s td l ls
      unfold execute.dist_loop
      rcases hg : ShareDataKey.get_share s h with _ | share
      · exact ih s td l ls
      · dsimp only
        by_cases ham : Int.tdiv (afs * share) 10000 > 0
        · rw [if_pos ham]
          have hst := save_allocation_stable s h tok
            ((AllocationDataKey.get_allocation s h tok).getD 0 + Int.tdiv (afs * share) 10000)
          have := ih (emit (AllocationDataKey.save_allocation s h tok
            ((AllocationDataKey.get_allocation s h tok).getD 0 + Int.tdiv (afs * share) 10000))
            (.distShare h tok (Int.tdiv (afs * share) 10000)))
            (td + Int.tdiv (afs * share) 10000)
            (if share > ls then (some h, share) else (l, ls)).1
            (if share > ls then (some h, share) else (l, ls)).2
          exact ⟨this.1.trans hst.1, this.2.1.trans hst.2.1,
            this.2.2.1.trans hst.2.2.1, this.2.2.2.1.trans hst.2.2.2.1,
            this.2.2.2.2.1.trans hst.2.2.2.2.1,
            this.2.2.2.2.2.1.trans hst.2.2.2.2.2.1,
            this.2.2.2.2.2.2.1.trans hst.2.2.2.2.2.2.1,
            this.2.2.2.2.2.2.2.trans hst.2.2.2.2.2.2.2.1⟩
        · rw [if_neg ham]
          exact ih s td
            (if share > ls then (some h, share) else (l, ls)).1
            (if share > ls then (some h, share) else (l, ls)).2

theorem dist_loop_total (tok : Addr) (afs : Int) :
    ∀ (hs : List Addr) (s : Store) (td : Int) (l : Option Addr) (ls : Int) (t0 : Option Int),
    0 ≤ td → 0 ≤ t0.getD 0 →
    AllocationDataKey.get_total_allocation s tok =
      (if td = 0 then t0 else some (t0.getD 0 + td)) →
    td ≤ (execute.dist_loop tok afs s hs td l ls).2.1 ∧
    AllocationDataKey.get_total_allocation (execute.dist_loop tok afs s hs td l ls).1 tok =
      (if (execute.dist_loop tok afs s hs td l ls).2.1 = 0 then t0
       else some (t0.getD 0 + (execute.dist_loop tok afs s hs td l ls).2.1)) := by
  intro hs
  induction hs with
  | nil => intro s td l ls t0 htd ht0 hcur; exact ⟨le_refl td, hcur⟩
  | cons h rest ih =>
      intro s td l ls t0 htd ht0 hcur
      unfold execute.dist_loop
      rcases hg : ShareDataKey.get_share s h with _ | share
      · exact ih s td l ls t0 htd ht0 hcur
      · dsimp only
        by_cases ham : Int.tdiv (afs * share) 10000 > 0
        · rw [if_pos ham]
          have hT : 0 ≤ (AllocationDataKey.get_total_allocation s tok).getD 0 := by
            rw [hcur]
            by_cases h0 : td = 0
            · simpa [h0] using ht0
            · simp only [if_neg h0, Option.getD_some]
              omega
          have hnew := save_allocation_total_of_credit s h tok
            (Int.tdiv (afs * share) 10000) ham hT
          have hnew' : AllocationDataKey.get_total_allocation
              (emit (AllocationDataKey.save_allocation s h tok
                ((AllocationDataKey.get_allocation s h tok).getD 0 +
                  Int.tdiv (afs * share) 10000))
                (.distShare h tok (Int.tdiv (afs * share) 10000))) tok =
              (if td + Int.tdiv (afs * share) 10000 = 0 then t0
               else some (t0.getD 0 + (td + Int.tdiv (afs * share) 10000))) := by
            rw [if_neg (by omega : ¬ td + Int.tdiv (afs * share) 10000 = 0)]
            refine hnew.trans ?_
            rw [hcur]
            by_cases h0 : td = 0
            · simp [h0]
            · simp only [if_neg h0, Option.getD_some]
              rw [Int.add_assoc]
          have := ih _ (td + Int.tdiv (afs * share) 10000)
            (if share > ls then (some h, share) else (l, ls)).1
            (if share > ls then (some h, share) else (l, ls)).2 t0
            (by omega) ht0 hnew'
          exact ⟨by omega, this.2⟩
        · rw [if_neg ham]
          exact ih s td
            (if share > ls then (some h, share) else (l, ls)).1
            (if share > ls then (some h, share) else (l, ls)).2 t0 htd ht0 hcur

theorem dist_loop_sum (tok : Addr) (afs : Int) :
    ∀ (hs : List Addr) (s : Store) (td : Int) (l : Option Addr) (ls : Int),
    sumTok (execute.dist_loop tok afs s hs td l ls).1.allocations tok =
      sumTok s.allocations tok + ((execute.dist_loop tok afs s hs td l ls).2.1 - td) := by
  intro hs
  induction hs with
  | nil => intro s td l ls; simp [execute.dist_loop]
  | cons h rest ih =>
      intro s td l ls
      unfold execute.dist_loop
      rcases hg : ShareDataKey.get_share s h with _ | share
      · exact ih s td l ls
      · dsimp only
        by_cases ham : Int.tdiv (afs * share) 10000 > 0
        · rw [if_pos ham]
          have hset : (emit (AllocationDataKey.save_allocation s h tok
              ((AllocationDataKey.get_allocation s h tok).getD 0 +
                Int.tdiv (afs * share) 10000))
              (.distShare h tok (Int.tdiv (afs * share) 10000))).allocations =
              aset s.allocations (h, tok)
                ((AllocationDataKey.get_allocation s h tok).getD 0 +
                  Int.tdiv (afs * share) 10000) :=
            save_allocation_allocations s h tok _
          have hsum : sumTok (emit (AllocationDataKey.save_allocation s h tok
              ((AllocationDataKey.get_allocation s h tok).getD 0 +
                Int.tdiv (afs * share) 10000))
              (.distShare h tok (Int.tdiv (afs * share) 10000))).allocations tok =
              sumTok s.allocations tok + Int.tdiv (afs * share) 10000 := by
            rw [hset, sumTok_aset_eq _ _ _ _ rfl]
            unfold AllocationDataKey.get_allocation
            ring
          have := ih (emit (AllocationDataKey.save_allocation s h tok
              ((AllocationDataKey.get_allocation s h tok).getD 0 +
                Int.tdiv (afs * share) 10000))
              (.distShare h tok (Int.tdiv (afs * share) 10000)))
            (td + Int.tdiv (afs * share) 10000)
            (if share > ls then (some h, share) else (l, ls)).1
            (if share > ls then (some h, share) else (l, ls)).2
          rw [this, hsum]
          ring
        · rw [if_neg ham]
          exact ih s td
            (if share > ls then (some h, share) else (l, ls)).1
            (if share > ls then (some h, share) else (l, ls)).2

theorem dist_loop_td_le (tok : Addr) (afs : Int) (hafs : 0 ≤ afs) :
    ∀ (hs : List Addr) (s : Store) (td : Int) (l : Option Addr) (ls : Int),
    (∀ h ∈ hs, 0 ≤ (ShareDataKey.get_share s h).getD 0) →
    (execute.dist_loop tok afs s hs td l ls).2.1 ≤
      td + Int.tdiv (afs * (hs.map fun h => (ShareDataKey.get_share s h).getD 0).sum) 10000 := by
  intro hs
  induction hs with
  | nil =>
      intro s td l ls _
      simp only [execute.dist_loop, List.map_nil, List.sum_nil, Int.mul_zero]
      have : Int.tdiv 0 10000 = 0 := rfl
      omega
  | cons h rest ih =>
      intro s td l ls hpos
      have hrestpos : ∀ h' ∈ rest, 0 ≤ (ShareDataKey.get_share s h').getD 0 :=
        fun h' hmem => hpos h' (List.mem_cons_of_mem h hmem)
      have hS : 0 ≤ (rest.map fun h' => (ShareDataKey.get_share s h').getD 0).sum :=
        List.sum_nonneg (by
          intro x hx
          simp only [List.mem_map] at hx
          rcases hx with ⟨h', hmem, rfl⟩
          exact hrestpos h' hmem)
      unfold execute.dist_loop
      rcases hg : ShareDataKey.get_share s h with _ | share
      · have := ih s td l ls hrestpos
        simp only [List.map_cons, List.sum_cons, hg, Option.getD_none, Int.zero_add]
        exact this
      · have hv : 0 ≤ share := by
          have := hpos h (List.mem_cons_self h rest)
          simpa [hg] using this
        dsimp only
        by_cases ham : Int.tdiv (afs * share) 10000 > 0
        · rw [if_pos ham]
          have hsh : ∀ h', ShareDataKey.get_share
              (emit (AllocationDataKey.save_allocation s h tok
                ((AllocationDataKey.get_allocation s h tok).getD 0 +
                  Int.tdiv (afs * share) 10000))
                (.distShare h tok (Int.tdiv (afs * share) 10000))) h' =
              ShareDataKey.get_share s h' :=
            fun h' => get_share_save_allocation s h tok _ h'
          have hrest' : ∀ h' ∈ rest, 0 ≤ (ShareDataKey.get_share
              (emit (AllocationDataKey.save_allocation s h tok
                ((AllocationDataKey.get_allocation s h tok).getD 0 +
                  Int.tdiv (afs * share) 10000))
                (.distShare h tok (Int.tdiv (afs * share) 10000))) h').getD 0 := by
            intro h' hmem
            rw [hsh h']
            exact hrestpos h' hmem
          have := ih (emit (AllocationDataKey.save_allocation s h tok
              ((AllocationDataKey.get_allocation s h tok).getD 0 +
                Int.tdiv (afs * share) 10000))
              (.distShare h tok (Int.tdiv (afs * share) 10000)))
            (td + Int.tdiv (afs * share) 10000)
            (if share > ls then (some h, share) else (l, ls)).1
            (if share > ls then (some h, share) else (l, ls)).2 hrest'
          simp only [hsh] at this
          have hadd := tdiv_add_le (afs * share)
            (afs * (rest.map fun h' => (ShareDataKey.get_share s h').getD 0).sum)
            (by positivity) (by positivity)
          simp only [List.map_cons, List.sum_cons, hg, Option.getD_some]
          have hmul : afs * share +
              afs * (rest.map fun h' => (ShareDataKey.get_share s h').getD 0).sum =
              afs * (share + (rest.map fun h' => (ShareDataKey.get_share s h').getD 0).sum) := by
            ring
          rw [hmul] at hadd
          omega
        · rw [if_neg ham]
          have := ih s td
            (if share > ls then (some h, share) else (l, ls)).1
            (if share > ls then (some h, share) else (l, ls)).2 hrestpos
          have hmono := tdiv_mono
            (afs * (rest.map fun h' => (ShareDataKey.get_share s h').getD 0).sum)
            (afs * (share + (rest.map fun h' => (ShareDataKey.get_share s h').getD 0).sum))
            (by positivity) (by nlinarith)
          simp only [List.map_cons, List.sum_cons, hg, Option.getD_some]
          omega

theorem find?_congr {α : Type} (l : List α) (p q : α → Bool)
    (h : ∀ x ∈ l, p x = q x) : l.find? p = l.find? q := by
  induction l with
  | nil => rfl
  | cons x t ih =>
      rcases hp : p x with _ | _
      · rw [List.find?_cons_of_neg _ (by simp [hp]),
          List.find?_cons_of_neg _ (by simp [← h x (List.mem_cons_self x t), hp])]
        exact ih fun y hy => h y (List.mem_cons_of_mem x hy)
      · rw [List.find?_cons_of_pos _ hp,
          List.find?_cons_of_pos _ (by rw [← h x (List.mem_cons_self x t)]; exact hp)]

theorem exists_max_mem {α : Type} (f : α → Int) (l : List α) (hne : l ≠ []) :
    ∃ x ∈ l, ∀ y ∈ l, f y ≤ f x := by
  induction l with
  | nil => exact absurd rfl hne
  | cons a t ih =>
      rcases t with _ | ⟨b, u⟩
      · exact ⟨a, List.mem_cons_self a [], by
          intro y hy
          simp only [List.mem_cons, List.not_mem_nil, or_false] at hy
          exact hy ▸ le_refl _⟩
      · rcases ih (by simp) with ⟨m, hm, hmax⟩
        by_cases hc : f m ≤ f a
        · refine ⟨a, List.mem_cons_self _ _, ?_⟩
          intro y hy
          rcases List.mem_cons.mp hy with rfl | hy2
          · exact le_refl _
          · exact (hmax y hy2).trans hc
        · refine ⟨m, List.mem_cons_of_mem a hm, ?_⟩
          intro y hy
          rcases List.mem_cons.mp hy with rfl | hy2
          · omega
          · exact hmax y hy2

theorem dist_loop_largest_mono (tok : Addr) (afs : Int) :
    ∀ (hs : List Addr) (s : Store) (td : Int) (l : Option Addr) (ls : Int),
    l.isSome → (execute.dist_loop tok afs s hs td l ls).2.2.1.isSome := by
  intro hs
  induction hs with
  | nil => intro s td l ls h; exact h
  | cons h rest ih =>
      intro s td l ls hl
      unfold execute.dist_loop
      rcases hg : ShareDataKey.get_share s h with _ | share
      · exact ih s td l ls hl
      · dsimp only
        have hpair : (if share > ls then (some h, share) else (l, ls)).1.isSome := by
          by_cases hc : share > ls
          · simp [hc]
          · simpa [hc] using hl
        by_cases ham : Int.tdiv (afs * share) 10000 > 0
        · rw [if_pos ham]
          exact ih _ _ _ _ hpair
        · rw [if_neg ham]
          exact ih _ _ _ _ hpair

theorem dist_loop_largest_exists (tok : Addr) (afs : Int) :
    ∀ (hs : List Addr) (s : Store) (td : Int) (l : Option Addr) (ls : Int), 0 ≤ ls →
    (∃ h ∈ hs, ls < (ShareDataKey.get_share s h).getD 0) →
    (execute.dist_loop tok afs s hs td l ls).2.2.1.isSome := by
  intro hs
  induction hs with
  | nil => intro s td l ls _ hex; simp at hex
  | cons h rest ih =>
      intro s td l ls hls hex
      unfold execute.dist_loop
      rcases hg : ShareDataKey.get_share s h with _ | share
      · refine ih s td l ls hls ?_
        rcases hex with ⟨h', hmem, hlt⟩
        rcases List.mem_cons.mp hmem with rfl | hmem2
        · rw [hg] at hlt
          simp at hlt
          omega
        · exact ⟨h', hmem2, hlt⟩
      · dsimp only
        by_cases hc : share > ls
        · have hpair : (if share > ls then (some h, share) else (l, ls)).1.isSome := by
            simp [hc]
          by_cases ham : Int.tdiv (afs * share) 10000 > 0
          · rw [if_pos ham]
            exact dist_loop_largest_mono tok afs rest _ _ _ _ hpair
          · rw [if_neg ham]
            exact dist_loop_largest_mono tok afs rest _ _ _ _ hpair
        · have hex2 : ∃ h' ∈ rest, ls < (ShareDataKey.get_share s h').getD 0 := by
            rcases hex with ⟨h', hmem, hlt⟩
            rcases List.mem_cons.mp hmem with rfl | hmem2
            · rw [hg] at hlt
              simp only [Option.getD_some] at hlt
              omega
            · exact ⟨h', hmem2, hlt⟩
          have hpair : (if share > ls then (some h, share) else (l, ls)) = (l, ls) := by
            simp [hc]
          by_cases ham : Int.tdiv (afs * share) 10000 > 0
          · rw [if_pos ham, hpair]
            refine ih _ _ _ _ hls ?_
            rcases hex2 with ⟨h', hmem, hlt⟩
            exact ⟨h', hmem, by rwa [get_share_emit, get_share_save_allocation]⟩
          · rw [if_neg ham, hpair]
            exact ih s td l ls hls hex2

theorem dist_loop_largest_char (tok : Addr) (afs : Int) :
    ∀ (hs : List Addr) (s : Store) (td : Int) (l : Option Addr) (ls : Int), 0 ≤ ls →
    (execute.dist_loop tok afs s hs td l ls).2.2.1 =
      (match hs.find? (fun h => decide (ls < (ShareDataKey.get_share s h).getD 0 ∧
          ∀ h2 ∈ hs, (ShareDataKey.get_share s h2).getD 0 ≤
            (ShareDataKey.get_share s h).getD 0)) with
       | some w => some w
       | none => l) := by
  intro hs
  induction hs with
  | nil => intro s td l ls _; simp [execute.dist_loop]
  | cons h rest ih =>
      intro s td l ls hls
      unfold execute.dist_loop
      rcases hg : ShareDataKey.get_share s h with _ | share
      -- holder without a share record: skipped entirely
      · rw [ih s td l ls hls]
        have hhead : ¬ (ls < (ShareDataKey.get_share s h).getD 0 ∧
            ∀ h2 ∈ h :: rest, (ShareDataKey.get_share s h2).getD 0 ≤
              (ShareDataKey.get_share s h).getD 0) := by
          rw [hg]
          simp only [Option.getD_none]
          rintro ⟨hlt, -⟩
          omega
        rw [List.find?_cons_of_neg _ (by simpa using hhead)]
        have hcongr := find?_congr rest
          (fun x => decide (ls < (ShareDataKey.get_share s x).getD 0 ∧
            ∀ h2 ∈ rest, (ShareDataKey.get_share s h2).getD 0 ≤
              (ShareDataKey.get_share s x).getD 0))
          (fun x => decide (ls < (ShareDataKey.get_share s x).getD 0 ∧
            ∀ h2 ∈ h :: rest, (ShareDataKey.get_share s h2).getD 0 ≤
              (ShareDataKey.get_share s x).getD 0))
          (by
            intro x hx
            rw [decide_eq_decide]
            constructor
            · rintro ⟨h1, h2⟩
              refine ⟨h1, ?_⟩
              intro h2' hmem
              rcases List.mem_cons.mp hmem with rfl | hmem2
              · rw [hg]; simp only [Option.getD_none]; omega
              · exact h2 h2' hmem2
            · rintro ⟨h1, h2⟩
              exact ⟨h1, fun h2' hmem => h2 h2' (List.mem_cons_of_mem h hmem)⟩)
        rw [hcongr]
      · dsimp only
        by_cases hc : share > ls
        -- the head strictly improves the running maximum
        · have hpair : (if share > ls then (some h, share) else (l, ls)) = (some h, share) := by
            simp [hc]
          by_cases hmax : ∀ h2 ∈ h :: rest, (ShareDataKey.get_share s h2).getD 0 ≤ share
          -- head is maximal over the whole vector: it wins
          · have hheadp : (ls < (ShareDataKey.get_share s h).getD 0 ∧
                ∀ h2 ∈ h :: rest, (ShareDataKey.get_share s h2).getD 0 ≤
                  (ShareDataKey.get_share s h).getD 0) := by
              rw [hg]
              exact ⟨by simpa using hc, by simpa [hg] using hmax⟩
            rw [List.find?_cons_of_pos _ (by simpa using hheadp)]
            have hnone : ∀ (s' : Store) (td' : Int), (∀ x, ShareDataKey.get_share s' x =
                ShareDataKey.get_share s x) →
                (execute.dist_loop tok afs s' rest td' (some h) share).2.2.1 = some h := by
              intro s' td' hsh
              rw [ih s' td' (some h) share (by omega)]
              have : rest.find? (fun x => decide (share < (ShareDataKey.get_share s' x).getD 0 ∧
                  ∀ h2 ∈ rest, (ShareDataKey.get_share s' h2).getD 0 ≤
                    (ShareDataKey.get_share s' x).getD 0)) = none := by
                rw [List.find?_eq_none]
                intro x hx
                simp only [decide_eq_true_eq, not_and]
                intro hlt
                exfalso
                have := hmax x (List.mem_cons_of_mem h hx)
                rw [hsh x] at hlt
                omega
              rw [this]
            by_cases ham : Int.tdiv (afs * share) 10000 > 0
            · rw [if_pos ham, hpair]
              exact hnone (emit (AllocationDataKey.save_allocation s h tok
                  ((AllocationDataKey.get_allocation s h tok).getD 0 +
                    Int.tdiv (afs * share) 10000))
                  (.distShare h tok (Int.tdiv (afs * share) 10000)))
                (td + Int.tdiv (afs * share) 10000)
                (fun x => by rw [get_share_emit, get_share_save_allocation])
            · rw [if_neg ham, hpair]
              exact hnone s td (fun x => rfl)
          -- someone later is strictly bigger
          · push_neg at hmax
            rcases hmax with ⟨y, hymem, hy⟩
            have hyrest : y ∈ rest := by
              rcases List.mem_cons.mp hymem with rfl | hm
              · rw [hg] at hy; simp at hy
              · exact hm
            have hheadn : ¬ (ls < (ShareDataKey.get_share s h).getD 0 ∧
                ∀ h2 ∈ h :: rest, (ShareDataKey.get_share s h2).getD 0 ≤
                  (ShareDataKey.get_share s h).getD 0) := by
              rw [hg]
              rintro ⟨-, hall⟩
              have := hall y hymem
              simp only [Option.getD_some] at this
              omega
            rw [List.find?_cons_of_neg _ (by simpa using hheadn)]
            have hcongr := find?_congr rest
              (fun x => decide (share < (ShareDataKey.get_share s x).getD 0 ∧
                ∀ h2 ∈ rest, (ShareDataKey.get_share s h2).getD 0 ≤
                  (ShareDataKey.get_share s x).getD 0))
              (fun x => decide (ls < (ShareDataKey.get_share s x).getD 0 ∧
                ∀ h2 ∈ h :: rest, (ShareDataKey.get_share s h2).getD 0 ≤
                  (ShareDataKey.get_share s x).getD 0))
              (by
                intro x hx
                rw [decide_eq_decide]
                constructor
                · rintro ⟨h1, h2⟩
                  refine ⟨by omega, ?_⟩
                  intro h2' hmem
                  rcases List.mem_cons.mp hmem with rfl | hmem2
                  · rw [hg]; simp only [Option.getD_some]; omega
                  · exact h2 h2' hmem2
                · rintro ⟨h1, h2⟩
                  have hyx := h2 y hymem
                  have hx2 : share < (ShareDataKey.get_share s x).getD 0 := by omega
                  exact ⟨hx2, fun h2' hmem => h2 h2' (List.mem_cons_of_mem h hmem)⟩)
            have hsome : (rest.find? (fun x =>
                decide (share < (ShareDataKey.get_share s x).getD 0 ∧
                  ∀ h2 ∈ rest, (ShareDataKey.get_share s h2).getD 0 ≤
                    (ShareDataKey.get_share s x).getD 0))).isSome := by
              rcases exists_max_mem (fun x => (ShareDataKey.get_share s x).getD 0) rest
                (by rintro rfl; simp at hyrest) with ⟨m, hmmem, hmmax⟩
              have hym := hmmax y hyrest
              rw [List.find?_isSome]
              exact ⟨m, hmmem, by
                simp only [decide_eq_true_eq]
                exact ⟨by omega, hmmax⟩⟩
            rcases Option.isSome_iff_exists.mp hsome with ⟨w, hw⟩
            have hrec : ∀ (s' : Store) (td' : Int), (∀ x, ShareDataKey.get_share s' x =
                ShareDataKey.get_share s x) →
                (execute.dist_loop tok afs s' rest td' (some h) share).2.2.1 = some w := by
              intro s' td' hsh
              rw [ih s' td' (some h) share (by omega)]
              have hsame : (rest.find? (fun x =>
                  decide (share < (ShareDataKey.get_share s' x).getD 0 ∧
                    ∀ h2 ∈ rest, (ShareDataKey.get_share s' h2).getD 0 ≤
                      (ShareDataKey.get_share s' x).getD 0))) =
                  (rest.find? (fun x =>
                    decide (share < (ShareDataKey.get_share s x).getD 0 ∧
                      ∀ h2 ∈ rest, (ShareDataKey.get_share s h2).getD 0 ≤
                        (ShareDataKey.get_share s x).getD 0))) := by
                refine find?_congr rest _ _ ?_
                intro x hx
                simp only [hsh]
              rw [hsame, hw]
            rw [← hcongr, hw]
            by_cases ham : Int.tdiv (afs * share) 10000 > 0
            · rw [if_pos ham, hpair]
              exact hrec (emit (AllocationDataKey.save_allocation s h tok
                  ((AllocationDataKey.get_allocation s h tok).getD 0 +
                    Int.tdiv (afs * share) 10000))
                  (.distShare h tok (Int.tdiv (afs * share) 10000)))
                (td + Int.tdiv (afs * share) 10000)
                (fun x => by rw [get_share_emit, get_share_save_allocation])
            · rw [if_neg ham, hpair]
              exact hrec s td (fun x => rfl)
        -- the head does not improve the running maximum
        · have hpair : (if share > ls then (some h, share) else (l, ls)) = (l, ls) := by
            simp [hc]
          have hheadn : ¬ (ls < (ShareDataKey.get_share s h).getD 0 ∧
              ∀ h2 ∈ h :: rest, (ShareDataKey.get_share s h2).getD 0 ≤
                (ShareDataKey.get_share s h).getD 0) := by
            rw [hg]
            rintro ⟨hlt, -⟩
            simp only [Option.getD_some] at hlt
            omega
          rw [List.find?_cons_of_neg _ (by simpa using hheadn)]
          have hcongr := find?_congr rest
            (fun x => decide (ls < (ShareDataKey.get_share s x).getD 0 ∧
              ∀ h2 ∈ rest, (ShareDataKey.get_share s h2).getD 0 ≤
                (ShareDataKey.get_share s x).getD 0))
            (fun x => decide (ls < (ShareDataKey.get_share s x).getD 0 ∧
              ∀ h2 ∈ h :: rest, (ShareDataKey.get_share s h2).getD 0 ≤
                (ShareDataKey.get_share s x).getD 0))
            (by
              intro x hx
              rw [decide_eq_decide]
              constructor
              · rintro ⟨h1, h2⟩
                refine ⟨h1, ?_⟩
                intro h2' hmem
                rcases List.mem_cons.mp hmem with rfl | hmem2
                · rw [hg]; simp only [Option.getD_some]; omega
                · exact h2 h2' hmem2
              · rintro ⟨h1, h2⟩
                exact ⟨h1, fun h2' hmem => h2 h2' (List.mem_cons_of_mem h hmem)⟩)
          rw [← hcongr]
          have hrec : ∀ (s' : Store) (td' : Int), (∀ x, ShareDataKey.get_share s' x =
              ShareDataKey.get_share s x) →
              (execute.dist_loop tok afs s' rest td' l ls).2.2.1 =
                (match rest.find? (fun x =>
                    decide (ls < (ShareDataKey.get_share s x).getD 0 ∧
                      ∀ h2 ∈ rest, (ShareDataKey.get_share s h2).getD 0 ≤
                        (ShareDataKey.get_share s x).getD 0)) with
                 | some w => some w
                 | none => l) := by
            intro s' td' hsh
            rw [ih s' td' l ls hls]
            have hsame : (rest.find? (fun x =>
                decide (ls < (ShareDataKey.get_share s' x).getD 0 ∧
                  ∀ h2 ∈ rest, (ShareDataKey.get_share s' h2).getD 0 ≤
                    (ShareDataKey.get_share s' x).getD 0))) =
                (rest.find? (fun x =>
                  decide (ls < (ShareDataKey.get_share s x).getD 0 ∧
                    ∀ h2 ∈ rest, (ShareDataKey.get_share s h2).getD 0 ≤
                      (ShareDataKey.get_share s x).getD 0))) := by
              refine find?_congr rest _ _ ?_
              intro x hx
              simp only [hsh]
            rw [hsame]
          by_cases ham : Int.tdiv (afs * share) 10000 > 0
          · rw [if_pos ham, hpair]
            exact hrec (emit (AllocationDataKey.save_allocation s h tok
                ((AllocationDataKey.get_allocation s h tok).getD 0 +
                  Int.tdiv (afs * share) 10000))
                (.distShare h tok (Int.tdiv (afs * share) 10000)))
              (td + Int.tdiv (afs * share) 10000)
              (fun x => by rw [get_share_emit, get_share_save_allocation])
          · rw [if_neg ham, hpair]
            exact hrec s td (fun x => rfl)

theorem save_allocation_totals_nodup (s : Store) (h tok : Addr) (v : Int)
    (hnd : (s.totalAllocations.map fun p => p.1).Nodup) :
    ((AllocationDataKey.save_allocation s h tok v).totalAllocations.map fun p => p.1).Nodup := by
  rw [save_allocation_totals_formula]
  repeat' split
  all_goals first
    | exact keys_aremove_nodup _ _ hnd
    | exact keys_aset_nodup _ _ _ hnd
    | exact hnd

theorem mem_save_allocation (s : Store) (h tok : Addr) (v : Int) (p : (Addr × Addr) × Int)
    (hp : p ∈ (AllocationDataKey.save_allocation s h tok v).allocations) :
    p = ((h, tok), v) ∨ p ∈ s.allocations := by
  rw [save_allocation_allocations] at hp
  exact mem_aset _ _ _ _ hp

theorem dist_loop_entries_pos (tok : Addr) (afs : Int) :
    ∀ (hs : List Addr) (s : Store) (td : Int) (l : Option Addr) (ls : Int),
    (∀ p ∈ s.allocations, p.1.2 = tok → 0 < p.2) →
    ∀ p ∈ (execute.dist_loop tok afs s hs td l ls).1.allocations, p.1.2 = tok → 0 < p.2 := by
  intro hs
  induction hs with
  | nil => intro s td l ls hpos; exact hpos
  | cons h rest ih =>
      intro s td l ls hpos
      unfold execute.dist_loop
      rcases hg : ShareDataKey.get_share s h with _ | share
      · exact ih s td l ls hpos
      · dsimp only
        by_cases ham : Int.tdiv (afs * share) 10000 > 0
        · rw [if_pos ham]
          refine ih _ _ _ _ ?_
          intro p hp htok
          rcases mem_save_allocation s h tok _ p hp with rfl | hmem
          · dsimp only
            rcases halo : AllocationDataKey.get_allocation s h tok with _ | v'
            · simp only [halo, Option.getD_none]
              omega
            · have hv' : 0 < v' := hpos _ (alookup_mem _ _ _ halo) rfl
              simp only [halo, Option.getD_some]
              omega
          · exact hpos p hmem htok
        · rw [if_neg ham]
          exact ih s td _ _ hpos

theorem dist_loop_other_tok (tok : Addr) (afs : Int) :
    ∀ (hs : List Addr) (s : Store) (td : Int) (l : Option Addr) (ls : Int) (t' : Addr),
    t' ≠ tok →
    sumTok (execute.dist_loop tok afs s hs td l ls).1.allocations t' =
      sumTok s.allocations t' ∧
    AllocationDataKey.get_total_allocation (execute.dist_loop tok afs s hs td l ls).1 t' =
      AllocationDataKey.get_total_allocation s t' ∧
    (∀ p ∈ (execute.dist_loop tok afs s hs td l ls).1.allocations,
      p.1.2 = t' → p ∈ s.allocations) := by
  intro hs
  induction hs with
  | nil => intro s td l ls t' ht; exact ⟨rfl, rfl, fun p hp _ => hp⟩
  | cons h rest ih =>
      intro s td l ls t' ht
      unfold execute.dist_loop
      rcases hg : ShareDataKey.get_share s h with _ | share
      · exact ih s td l ls t' ht
      · dsimp only
        by_cases ham : Int.tdiv (afs * share) 10000 > 0
        · rw [if_pos ham]
          have hnext := ih (emit (AllocationDataKey.save_allocation s h tok
              ((AllocationDataKey.get_allocation s h tok).getD 0 +
                Int.tdiv (afs * share) 10000))
              (.distShare h tok (Int.tdiv (afs * share) 10000)))
            (td + Int.tdiv (afs * share) 10000)
            (if share > ls then (some h, share) else (l, ls)).1
            (if share > ls then (some h, share) else (l, ls)).2 t' ht
          have hsum : sumTok (AllocationDataKey.save_allocation s h tok
              ((AllocationDataKey.get_allocation s h tok).getD 0 +
                Int.tdiv (afs * share) 10000)).allocations t' =
              sumTok s.allocations t' := by
            rw [save_allocation_allocations]
            exact filterTok_aset_ne _ _ _ _ (Ne.symm ht)
          refine ⟨hnext.1.trans hsum, hnext.2.1.trans ?_, ?_⟩
          · exact save_allocation_total_ne s h tok _ t' ht
          · intro p hp htp
            rcases mem_save_allocation s h tok _ p (hnext.2.2 p hp htp) with rfl | hmem
            · exact absurd htp.symm ht
            · exact hmem
        · rw [if_neg ham]
          exact ih s td _ _ t' ht

theorem dist_loop_nodup (tok : Addr) (afs : Int) :
    ∀ (hs : List Addr) (s : Store) (td : Int) (l : Option Addr) (ls : Int),
    (s.allocations.map fun p => p.1).Nodup →
    (s.totalAllocations.map fun p => p.1).Nodup →
    ((execute.dist_loop tok afs s hs td l ls).1.allocations.map fun p => p.1).Nodup ∧
    ((execute.dist_loop tok afs s hs td l ls).1.totalAllocations.map fun p => p.1).Nodup := by
  intro hs
  induction hs with
  | nil => intro s td l ls h1 h2; exact ⟨h1, h2⟩
  | cons h rest ih =>
      intro s td l ls h1 h2
      unfold execute.dist_loop
      rcases hg : ShareDataKey.get_share s h with _ | share
      · exact ih s td l ls h1 h2
      · dsimp only
        by_cases ham : Int.tdiv (afs * share) 10000 > 0
        · rw [if_pos ham]
          refine ih _ _ _ _ ?_ ?_
          · have hall : (emit (AllocationDataKey.save_allocation s h tok
                ((AllocationDataKey.get_allocation s h tok).getD 0 +
                  Int.tdiv (afs * share) 10000))
                (.distShare h tok (Int.tdiv (afs * share) 10000))).allocations =
                aset s.allocations (h, tok)
                  ((AllocationDataKey.get_allocation s h tok).getD 0 +
                    Int.tdiv (afs * share) 10000) := save_allocation_allocations s h tok _
            rw [hall]
            exact keys_aset_nodup _ _ _ h1
          · exact save_allocation_totals_nodup s h tok _ h2
        · rw [if_neg ham]
          exact ih s td _ _ h1 h2

theorem list_sum_nonpos (l : List Int) (h : ∀ x ∈ l, x ≤ 0) : l.sum ≤ 0 := by
  induction l with
  | nil => simp
  | cons y u ih =>
      simp only [List.sum_cons]
      have h1 := h y (List.mem_cons_self y u)
      have h2 := ih (fun x hx => h x (List.mem_cons_of_mem y hx))
      omega

theorem token_balance_congr (s1 s2 : Store) (owner tok : Addr)
    (h : s1.ledger = s2.ledger) : token_balance s1 owner tok = token_balance s2 owner tok := by
  unfold token_balance
  rw [h]

/-- Shared postcondition of a distribution round with a positive distributable
amount: it succeeds, credits exactly the remainder (distributable minus
commission) into the per-token total and per-holder sum, moves only the
commission out of the pool's balance, and leaves the registry, config and
commission policy untouched. -/
theorem distribute_tokens_post (s : Store) (tok : Addr) (c0 : ConfigDataKey)
    (cfg : CommissionConfig)
    (hcfg : s.config = some c0)
    (hcom : s.commission = some cfg)
    (hrate : 0 ≤ cfg.distribution_rate_bps)
    (hrate2 : cfg.distribution_rate_bps ≤ 5000)
    (hrec : cfg.recipient ≠ s.self)
    (hsum : (s.shareholders.map fun h => (ShareDataKey.get_share s h).getD 0).sum = 10000)
    (hpos : ∀ h ∈ s.shareholders, 0 ≤ (ShareDataKey.get_share s h).getD 0)
    (hT0 : 0 ≤ (AllocationDataKey.get_total_allocation s tok).getD 0)
    (hd : 0 < token_balance s s.self tok -
      (AllocationDataKey.get_total_allocation s tok).getD 0) :
    (execute.distribute_tokens s tok).1 = none ∧
    AllocationDataKey.get_total_allocation (execute.distribute_tokens s tok).2 tok =
      some ((AllocationDataKey.get_total_allocation s tok).getD 0 +
        (token_balance s s.self tok - (AllocationDataKey.get_total_allocation s tok).getD 0 -
          CommissionConfig.calculate_commission
            (token_balance s s.self tok -
              (AllocationDataKey.get_total_allocation s tok).getD 0)
            cfg.distribution_rate_bps)) ∧
    sumTok (execute.distribute_tokens s tok).2.allocations tok =
      sumTok s.allocations tok +
        (token_balance s s.self tok - (AllocationDataKey.get_total_allocation s tok).getD 0 -
          CommissionConfig.calculate_commission
            (token_balance s s.self tok -
              (AllocationDataKey.get_total_allocation s tok).getD 0)
            cfg.distribution_rate_bps) ∧
    token_balance (execute.distribute_tokens s tok).2 s.self tok =
      token_balance s s.self tok -
        CommissionConfig.calculate_commission
          (token_balance s s.self tok -
            (AllocationDataKey.get_total_allocation s tok).getD 0)
          cfg.distribution_rate_bps ∧
    (execute.distribute_tokens s tok).2.self = s.self ∧
    (execute.distribute_tokens s tok).2.config = s.config ∧
    (execute.distribute_tokens s tok).2.commission = some cfg ∧
    (execute.distribute_tokens s tok).2.shareholders = s.shareholders ∧
    (execute.distribute_tokens s tok).2.shares = s.shares := by
  have hget : CommissionConfig.get s = (cfg, s) := by
    unfold CommissionConfig.get
    rw [hcom]
  unfold execute.distribute_tokens
  rw [hcfg]
  dsimp only [Option.isNone_some, Bool.false_eq_true, if_false]
  have hd' : ¬ (token_balance s s.self tok -
      (AllocationDataKey.get_total_allocation s tok).getD 0 ≤ 0) := by omega
  rw [if_neg hd']
  rw [hget]
  dsimp only
  have hc0 : 0 ≤ CommissionConfig.calculate_commission
      (token_balance s s.self tok - (AllocationDataKey.get_total_allocation s tok).getD 0)
      cfg.distribution_rate_bps :=
    calculate_commission_nonneg _ _ (by omega) hrate
  have hclt : CommissionConfig.calculate_commission
      (token_balance s s.self tok - (AllocationDataKey.get_total_allocation s tok).getD 0)
      cfg.distribution_rate_bps <
      token_balance s s.self tok - (AllocationDataKey.get_total_allocation s tok).getD 0 :=
    calculate_commission_lt _ _ hd hrate hrate2
  set b := token_balance s s.self tok with hb
  set T := (AllocationDataKey.get_total_allocation s tok).getD 0 with hT
  set c := CommissionConfig.calculate_commission (b - T) cfg.distribution_rate_bps with hcdef
  set sc := (if c > 0 then
      emit (token_transfer s tok s.self cfg.recipient c)
        (Event.distCommission tok cfg.recipient c)
    else s) with hscdef
  set afs := b - T - c with hafsdef
  have hafspos : 0 < afs := by omega
  rw [if_neg (by omega : ¬ afs ≤ 0)]
  -- facts about the post-commission store
  have hsc_fields : sc.self = s.self ∧ sc.config = s.config ∧ sc.commission = s.commission ∧
      sc.shareholders = s.shareholders ∧ sc.shares = s.shares ∧
      sc.allocations = s.allocations ∧ sc.totalAllocations = s.totalAllocations := by
    rw [hscdef]
    split
    · exact ⟨rfl, rfl, rfl, rfl, rfl, rfl, rfl⟩
    · exact ⟨rfl, rfl, rfl, rfl, rfl, rfl, rfl⟩
  have hsc_bal : token_balance sc s.self tok = b - c := by
    rw [hscdef]
    by_cases hcpos : c > 0
    · rw [if_pos hcpos]
      exact token_transfer_balance_sender s tok s.self cfg.recipient c (Ne.symm hrec)
    · rw [if_neg hcpos]
      omega
  have hsc_share : ∀ h, ShareDataKey.get_share sc h = ShareDataKey.get_share s h := by
    intro h
    unfold ShareDataKey.get_share
    rw [hsc_fields.2.2.2.2.1]
  have hsc_holders : ShareDataKey.get_shareholders sc = s.shareholders := by
    unfold ShareDataKey.get_shareholders
    exact hsc_fields.2.2.2.1
  have hsc_total : AllocationDataKey.get_total_allocation sc tok =
      AllocationDataKey.get_total_allocation s tok := by
    unfold AllocationDataKey.get_total_allocation
    rw [hsc_fields.2.2.2.2.2.2]
  -- loop facts
  have htotal := dist_loop_total tok afs (ShareDataKey.get_shareholders sc) sc 0 none 0
    (AllocationDataKey.get_total_allocation s tok) (le_refl 0) (by omega)
    (by rw [hsc_total]; simp)
  have htdle := dist_loop_td_le tok afs (by omega) (ShareDataKey.get_shareholders sc)
    sc 0 none 0
    (by
      intro h hmem
      rw [hsc_share h]
      exact hpos h (by rwa [hsc_holders] at hmem))
  have hsummap : ((ShareDataKey.get_shareholders sc).map fun h =>
      (ShareDataKey.get_share sc h).getD 0).sum = 10000 := by
    rw [hsc_holders]
    simp only [hsc_share]
    exact hsum
  rw [hsummap, tdiv_mul_cancel afs (by omega)] at htdle
  have hsum_loop := dist_loop_sum tok afs (ShareDataKey.get_shareholders sc) sc 0 none 0
  have hstable := dist_loop_stable tok afs (ShareDataKey.get_shareholders sc) sc 0 none 0
  have hexists : ∃ h ∈ ShareDataKey.get_shareholders sc,
      (0:Int) < (ShareDataKey.get_share sc h).getD 0 := by
    by_contra hnone
    push_neg at hnone
    have hle : ((ShareDataKey.get_shareholders sc).map fun h =>
        (ShareDataKey.get_share sc h).getD 0).sum ≤ 0 := by
      apply list_sum_nonpos
      intro x hx
      simp only [List.mem_map] at hx
      rcases hx with ⟨h, hmem, rfl⟩
      exact hnone h hmem
    rw [hsummap] at hle
    omega
  have hlsome := dist_loop_largest_exists tok afs (ShareDataKey.get_shareholders sc)
    sc 0 none 0 (le_refl 0) hexists
  have hsc_sum : sumTok sc.allocations tok = sumTok s.allocations tok := by
    rw [hsc_fields.2.2.2.2.2.1]
  generalize hres : execute.dist_loop tok afs sc (ShareDataKey.get_shareholders sc) 0 none 0
    = res at htotal htdle hsum_loop hstable hlsome ⊢
  obtain ⟨sloop, td, largest, lsh⟩ := res
  dsimp only at htotal htdle hsum_loop hstable hlsome ⊢
  by_cases hdpos : afs - td > 0
  · rw [if_pos hdpos]
    rcases Option.isSome_iff_exists.mp hlsome with ⟨w, rfl⟩
    dsimp only
    have hTres : 0 ≤ (AllocationDataKey.get_total_allocation sloop tok).getD 0 := by
      rw [htotal.2]
      by_cases h0 : td = 0
      · rw [if_pos h0]
        omega
      · rw [if_neg h0]
        simp only [Option.getD_some]
        omega
    have hcredit := save_allocation_total_of_credit sloop w tok (afs - td) hdpos hTres
    have htotfin : AllocationDataKey.get_total_allocation
        (AllocationDataKey.save_allocation sloop w tok
          ((AllocationDataKey.get_allocation sloop w tok).getD 0 + (afs - td))) tok =
        some (T + afs) := by
      refine hcredit.trans ?_
      rw [htotal.2]
      by_cases h0 : td = 0
      · rw [if_pos h0]
        congr 1
        omega
      · rw [if_neg h0]
        simp only [Option.getD_some]
        congr 1
        omega
    have hsumfin : sumTok (AllocationDataKey.save_allocation sloop w tok
        ((AllocationDataKey.get_allocation sloop w tok).getD 0 + (afs - td))).allocations tok =
        sumTok s.allocations tok + afs := by
      rw [save_allocation_allocations, sumTok_aset_eq _ _ _ _ rfl]
      unfold AllocationDataKey.get_allocation
      rw [hsum_loop, hsc_sum]
      ring
    have hsast := save_allocation_stable sloop w tok
      ((AllocationDataKey.get_allocation sloop w tok).getD 0 + (afs - td))
    refine ⟨rfl, ?_, ?_, ?_, ?_, ?_, ?_, ?_, ?_⟩
    · exact htotfin
    · exact hsumfin
    · refine (token_balance_congr _ sc s.self tok
        (hsast.2.2.2.2.2.2.2.1.trans hstable.2.2.2.2.2.2.2)).trans hsc_bal
    · exact hsast.1.trans (hstable.1.trans hsc_fields.1)
    · exact hsast.2.1.trans (hstable.2.1.trans (hsc_fields.2.1.trans hcfg))
    · exact hsast.2.2.2.2.2.2.1.trans
        (hstable.2.2.2.2.2.2.1.trans (hsc_fields.2.2.1.trans hcom))
    · exact hsast.2.2.1.trans (hstable.2.2.1.trans hsc_fields.2.2.2.1)
    · exact hsast.2.2.2.1.trans (hstable.2.2.2.1.trans hsc_fields.2.2.2.2.1)
  · rw [if_neg hdpos]
    dsimp only
    have htdafs : td = afs := by omega
    refine ⟨rfl, ?_, ?_, ?_, ?_, ?_, ?_, ?_, ?_⟩
    · have hfin1 : AllocationDataKey.get_total_allocation sloop tok = some (T + afs) := by
        rw [htotal.2, if_neg (by omega : ¬ td = 0), htdafs]
      exact hfin1
    · have hfin2 : sumTok sloop.allocations tok = sumTok s.allocations tok + afs := by
        rw [hsum_loop, hsc_sum]
        omega
      exact hfin2
    · exact (token_balance_congr _ sc s.self tok hstable.2.2.2.2.2.2.2).trans hsc_bal
    · exact hstable.1.trans hsc_fields.1
    · exact hstable.2.1.trans (hsc_fields.2.1.trans hcfg)
    · exact hstable.2.2.2.2.2.2.1.trans (hsc_fields.2.2.1.trans hcom)
    · exact hstable.2.2.1.trans hsc_fields.2.2.2.1
    · exact hstable.2.2.2.1.trans hsc_fields.2.2.2.2.1

/-- The designed early-return: with nothing new to distribute the call is a
successful no-op. -/
theorem distribute_tokens_noop (s : Store) (tok : Addr) (c0 : ConfigDataKey)
    (hcfg : s.config = some c0)
    (hle : token_balance s s.self tok -
      (AllocationDataKey.get_total_allocation s tok).getD 0 ≤ 0) :
    execute.distribute_tokens s tok = (none, s) := by
  unfold execute.distribute_tokens
  rw [hcfg]
  dsimp only [Option.isNone_some, Bool.false_eq_true, if_false]
  rw [if_pos hle]
  simp

/-- C2: after a distribution with a positive distributable amount, the pool
balance and the tracked total allocation coincide, so an immediately repeated
call takes the early-return path and changes nothing. -/
theorem C2_distribute_idempotent (s : Store) (tok : Addr) (c0 : ConfigDataKey)
    (cfg : CommissionConfig)
    (hcfg : s.config = some c0)
    (hcom : s.commission = some cfg)
    (hrate : 0 ≤ cfg.distribution_rate_bps)
    (hrate2 : cfg.distribution_rate_bps ≤ 5000)
    (hrec : cfg.recipient ≠ s.self)
    (hsum : (s.shareholders.map fun h => (ShareDataKey.get_share s h).getD 0).sum = 10000)
    (hpos : ∀ h ∈ s.shareholders, 0 ≤ (ShareDataKey.get_share s h).getD 0)
    (hT0 : 0 ≤ (AllocationDataKey.get_total_allocation s tok).getD 0) :
    (execute.distribute_tokens s tok).1 = none ∧
    execute.distribute_tokens (execute.distribute_tokens s tok).2 tok =
      (none, (execute.distribute_tokens s tok).2) ∧
    (0 < token_balance s s.self tok -
        (AllocationDataKey.get_total_allocation s tok).getD 0 →
      token_balance (execute.distribute_tokens s tok).2
          (execute.distribute_tokens s tok).2.self tok -
        (AllocationDataKey.get_total_allocation (execute.distribute_tokens s tok).2 tok).getD 0
        = 0) := by
  by_cases hd : 0 < token_balance s s.self tok -
      (AllocationDataKey.get_total_allocation s tok).getD 0
  · have hpost := distribute_tokens_post s tok c0 cfg hcfg hcom hrate hrate2 hrec hsum
      hpos hT0 hd
    have hzero : token_balance (execute.distribute_tokens s tok).2
        (execute.distribute_tokens s tok).2.self tok -
        (AllocationDataKey.get_total_allocation (execute.distribute_tokens s tok).2 tok).getD 0
        = 0 := by
      rw [hpost.2.2.2.2.1, hpost.2.1, hpost.2.2.2.1]
      simp only [Option.getD_some]
      ring
    refine ⟨hpost.1, ?_, fun _ => hzero⟩
    refine distribute_tokens_noop _ tok c0 ?_ (by omega)
    rw [hpost.2.2.2.2.2.1, hcfg]
  · have hnoop := distribute_tokens_noop s tok c0 hcfg (by omega)
    rw [hnoop]
    exact ⟨rfl, hnoop, fun hcontra => absurd hcontra hd⟩

/-- C3: a distribution with a positive distributable amount allocates exactly
the remainder (distributable minus commission): both the per-token total
allocation record and the sum of the per-holder allocation records grow by
exactly that remainder, so no value is left unallocated. -/
theorem C3_distribute_full_allocation (s : Store) (tok : Addr) (c0 : ConfigDataKey)
    (cfg : CommissionConfig)
    (hcfg : s.config = some c0)
    (hcom : s.commission = some cfg)
    (hrate : 0 ≤ cfg.distribution_rate_bps)
    (hrate2 : cfg.distribution_rate_bps ≤ 5000)
    (hrec : cfg.recipient ≠ s.self)
    (hsum : (s.shareholders.map fun h => (ShareDataKey.get_share s h).getD 0).sum = 10000)
    (hpos : ∀ h ∈ s.shareholders, 0 ≤ (ShareDataKey.get_share s h).getD 0)
    (hT0 : 0 ≤ (AllocationDataKey.get_total_allocation s tok).getD 0)
    (hd : 0 < token_balance s s.self tok -
      (AllocationDataKey.get_total_allocation s tok).getD 0) :
    (execute.distribute_tokens s tok).1 = none ∧
    0 < token_balance s s.self tok -
        (AllocationDataKey.get_total_allocation s tok).getD 0 -
        CommissionConfig.calculate_commission
          (token_balance s s.self tok - (AllocationDataKey.get_total_allocation s tok).getD 0)
          cfg.distribution_rate_bps ∧
    sumTok (execute.distribute_tokens s tok).2.allocations tok =
      sumTok s.allocations tok +
        (token_balance s s.self tok - (AllocationDataKey.get_total_allocation s tok).getD 0 -
          CommissionConfig.calculate_commission
            (token_balance s s.self tok -
              (AllocationDataKey.get_total_allocation s tok).getD 0)
            cfg.distribution_rate_bps) ∧
    AllocationDataKey.get_total_allocation (execute.distribute_tokens s tok).2 tok =
      some ((AllocationDataKey.get_total_allocation s tok).getD 0 +
        (token_balance s s.self tok - (AllocationDataKey.get_total_allocation s tok).getD 0 -
          CommissionConfig.calculate_commission
            (token_balance s s.self tok -
              (AllocationDataKey.get_total_allocation s tok).getD 0)
            cfg.distribution_rate_bps)) := by
  have hpost := distribute_tokens_post s tok c0 cfg hcfg hcom hrate hrate2 hrec hsum
    hpos hT0 hd
  have hclt := calculate_commission_lt
    (token_balance s s.self tok - (AllocationDataKey.get_total_allocation s tok).getD 0)
    cfg.distribution_rate_bps hd hrate hrate2
  exact ⟨hpost.1, by omega, hpost.2.2.1, hpost.2.1⟩

theorem get_allocation_congr (s1 s2 : Store) (h tok : Addr)
    (ha : s1.allocations = s2.allocations) :
    AllocationDataKey.get_allocation s1 h tok = AllocationDataKey.get_allocation s2 h tok := by
  unfold AllocationDataKey.get_allocation
  rw [ha]

theorem dist_loop_congr (tok : Addr) (afs : Int) :
    ∀ (hs : List Addr) (s1 s2 : Store) (td : Int) (l : Option Addr) (ls : Int),
    s1.shares = s2.shares → s1.allocations = s2.allocations →
    s1.totalAllocations = s2.totalAllocations →
    (execute.dist_loop tok afs s1 hs td l ls).2 =
      (execute.dist_loop tok afs s2 hs td l ls).2 ∧
    (execute.dist_loop tok afs s1 hs td l ls).1.shares =
      (execute.dist_loop tok afs s2 hs td l ls).1.shares ∧
    (execute.dist_loop tok afs s1 hs td l ls).1.allocations =
      (execute.dist_loop tok afs s2 hs td l ls).1.allocations ∧
    (execute.dist_loop tok afs s1 hs td l ls).1.totalAllocations =
      (execute.dist_loop tok afs s2 hs td l ls).1.totalAllocations := by
  intro hs
  induction hs with
  | nil => intro s1 s2 td l ls h1 h2 h3; exact ⟨rfl, h1, h2, h3⟩
  | cons h rest ih =>
      intro s1 s2 td l ls h1 h2 h3
      unfold execute.dist_loop
      have hgs : ShareDataKey.get_share s1 h = ShareDataKey.get_share s2 h := by
        unfold ShareDataKey.get_share
        rw [h1]
      rcases hg : ShareDataKey.get_share s2 h with _ | share
      · rw [hgs, hg]
        exact ih s1 s2 td l ls h1 h2 h3
      · rw [hgs, hg]
        dsimp only
        have hga : AllocationDataKey.get_allocation s1 h tok =
            AllocationDataKey.get_allocation s2 h tok := get_allocation_congr s1 s2 h tok h2
        by_cases ham : Int.tdiv (afs * share) 10000 > 0
        · rw [if_pos ham, if_pos ham]
          refine ih _ _ _ _ _ ?_ ?_ ?_
          · show (AllocationDataKey.save_allocation s1 h tok _).shares =
              (AllocationDataKey.save_allocation s2 h tok _).shares
            rw [save_allocation_shares_eq, save_allocation_shares_eq, h1]
          · show (AllocationDataKey.save_allocation s1 h tok _).allocations =
              (AllocationDataKey.save_allocation s2 h tok _).allocations
            rw [save_allocation_allocations, save_allocation_allocations, h2, hga]
          · show (AllocationDataKey.save_allocation s1 h tok _).totalAllocations =
              (AllocationDataKey.save_allocation s2 h tok _).totalAllocations
            rw [save_allocation_totals_formula, save_allocation_totals_formula,
              h2, h3, hga]
        · rw [if_neg ham, if_neg ham]
          exact ih s1 s2 td _ _ h1 h2 h3

theorem option_match_id (o : Option Addr) :
    (match o with | some w => some w | none => none) = o := by
  cases o <;> rfl

/-- C5: the dust recipient tracked by the distribution loop is exactly the
first holder in registry order whose share is positive and maximal (a later
holder with an equal amount never replaces it), and when dust is positive the
final store credits that holder's allocation by exactly the dust. -/
theorem C5_dust_first_largest_holder (s : Store) (tok : Addr) (c0 : ConfigDataKey)
    (cfg : CommissionConfig)
    (hcfg : s.config = some c0)
    (hcom : s.commission = some cfg)
    (hrate : 0 ≤ cfg.distribution_rate_bps)
    (hrate2 : cfg.distribution_rate_bps ≤ 5000)
    (hrec : cfg.recipient ≠ s.self)
    (hsum : (s.shareholders.map fun h => (ShareDataKey.get_share s h).getD 0).sum = 10000)
    (hpos : ∀ h ∈ s.shareholders, 0 ≤ (ShareDataKey.get_share s h).getD 0)
    (hT0 : 0 ≤ (AllocationDataKey.get_total_allocation s tok).getD 0)
    (hd : 0 < token_balance s s.self tok -
      (AllocationDataKey.get_total_allocation s tok).getD 0) :
    (∀ (s0 : Store) (tok0 : Addr) (afs0 : Int) (hs : List Addr),
      (execute.dist_loop tok0 afs0 s0 hs 0 none 0).2.2.1 =
        specDustRecipient (ShareDataKey.get_share s0) hs) ∧
    (0 < (token_balance s s.self tok -
          (AllocationDataKey.get_total_allocation s tok).getD 0 -
          CommissionConfig.calculate_commission
            (token_balance s s.self tok -
              (AllocationDataKey.get_total_allocation s tok).getD 0)
            cfg.distribution_rate_bps) -
        (execute.dist_loop tok
          (token_balance s s.self tok -
            (AllocationDataKey.get_total_allocation s tok).getD 0 -
            CommissionConfig.calculate_commission
              (token_balance s s.self tok -
                (AllocationDataKey.get_total_allocation s tok).getD 0)
              cfg.distribution_rate_bps)
          s s.shareholders 0 none 0).2.1 →
      ∃ w, specDustRecipient (ShareDataKey.get_share s) s.shareholders = some w ∧
        AllocationDataKey.get_allocation (execute.distribute_tokens s tok).2 w tok =
          some ((AllocationDataKey.get_allocation
              (execute.dist_loop tok
                (token_balance s s.self tok -
                  (AllocationDataKey.get_total_allocation s tok).getD 0 -
                  CommissionConfig.calculate_commission
                    (token_balance s s.self tok -
                      (AllocationDataKey.get_total_allocation s tok).getD 0)
                    cfg.distribution_rate_bps)
                s s.shareholders 0 none 0).1 w tok).getD 0 +
            ((token_balance s s.self tok -
                (AllocationDataKey.get_total_allocation s tok).getD 0 -
                CommissionConfig.calculate_commission
                  (token_balance s s.self tok -
                    (AllocationDataKey.get_total_allocation s tok).getD 0)
                  cfg.distribution_rate_bps) -
              (execute.dist_loop tok
                (token_balance s s.self tok -
                  (AllocationDataKey.get_total_allocation s tok).getD 0 -
                  CommissionConfig.calculate_commission
                    (token_balance s s.self tok -
                      (AllocationDataKey.get_total_allocation s tok).getD 0)
                    cfg.distribution_rate_bps)
                s s.shareholders 0 none 0).2.1))) := by
  constructor
  · intro s0 tok0 afs0 hs0
    rw [dist_loop_largest_char tok0 afs0 hs0 s0 0 none 0 (le_refl 0)]
    unfold specDustRecipient
    exact option_match_id _
  · intro hdust
    have hget : CommissionConfig.get s = (cfg, s) := by
      unfold CommissionConfig.get
      rw [hcom]
    have hc0 : 0 ≤ CommissionConfig.calculate_commission
        (token_balance s s.self tok - (AllocationDataKey.get_total_allocation s tok).getD 0)
        cfg.distribution_rate_bps :=
      calculate_commission_nonneg _ _ (by omega) hrate
    have hclt : CommissionConfig.calculate_commission
        (token_balance s s.self tok - (AllocationDataKey.get_total_allocation s tok).getD 0)
        cfg.distribution_rate_bps <
        token_balance s s.self tok - (AllocationDataKey.get_total_allocation s tok).getD 0 :=
      calculate_commission_lt _ _ hd hrate hrate2
    unfold execute.distribute_tokens
    rw [hcfg]
    dsimp only [Option.isNone_some, Bool.false_eq_true, if_false]
    have hd' : ¬ (token_balance s s.self tok -
        (AllocationDataKey.get_total_allocation s tok).getD 0 ≤ 0) := by omega
    rw [if_neg hd']
    rw [hget]
    dsimp only
    set b := token_balance s s.self tok with hb
    set T := (AllocationDataKey.get_total_allocation s tok).getD 0 with hT
    set c := CommissionConfig.calculate_commission (b - T) cfg.distribution_rate_bps with hcdef
    set sc := (if c > 0 then
        emit (token_transfer s tok s.self cfg.recipient c)
          (Event.distCommission tok cfg.recipient c)
      else s) with hscdef
    set afs := b - T - c with hafsdef
    have hafspos : 0 < afs := by omega
    rw [if_neg (by omega : ¬ afs ≤ 0)]
    have hsc_fields : sc.self = s.self ∧ sc.config = s.config ∧
        sc.commission = s.commission ∧ sc.shareholders = s.shareholders ∧
        sc.shares = s.shares ∧ sc.allocations = s.allocations ∧
        sc.totalAllocations = s.totalAllocations := by
      rw [hscdef]
      split
      · exact ⟨rfl, rfl, rfl, rfl, rfl, rfl, rfl⟩
      · exact ⟨rfl, rfl, rfl, rfl, rfl, rfl, rfl⟩
    have hsc_share : ∀ h, ShareDataKey.get_share sc h = ShareDataKey.get_share s h := by
      intro h
      unfold ShareDataKey.get_share
      rw [hsc_fields.2.2.2.2.1]
    have hsc_holders : ShareDataKey.get_shareholders sc = s.shareholders := by
      unfold ShareDataKey.get_shareholders
      exact hsc_fields.2.2.2.1
    rw [hsc_holders]
    have hcongr := dist_loop_congr tok afs s.shareholders sc s 0 none 0
      hsc_fields.2.2.2.2.1 hsc_fields.2.2.2.2.2.1 hsc_fields.2.2.2.2.2.2
    have hdust2 : 0 < afs - (execute.dist_loop tok afs sc s.shareholders 0 none 0).2.1 := by
      have := congrArg (fun x => x.1) hcongr.1
      dsimp only at this
      omega
    have hexists : ∃ h ∈ s.shareholders,
        (0:Int) < (ShareDataKey.get_share sc h).getD 0 := by
      by_contra hnone
      push_neg at hnone
      have hle : (s.shareholders.map fun h => (ShareDataKey.get_share s h).getD 0).sum ≤ 0 := by
        apply list_sum_nonpos
        intro x hx
        simp only [List.mem_map] at hx
        rcases hx with ⟨h, hmem, rfl⟩
        have := hnone h hmem
        rwa [hsc_share h] at this
      omega
    have hlsome := dist_loop_largest_exists tok afs s.shareholders sc 0 none 0
      (le_refl 0) hexists
    have hchar := dist_loop_largest_char tok afs s.shareholders sc 0 none 0 (le_refl 0)
    generalize hres : execute.dist_loop tok afs sc s.shareholders 0 none 0 = res
      at hcongr hdust2 hlsome hchar ⊢
    obtain ⟨sloop, td, largest, lsh⟩ := res
    dsimp only at hcongr hdust2 hlsome hchar ⊢
    rw [if_pos hdust2]
    rcases Option.isSome_iff_exists.mp hlsome with ⟨w, rfl⟩
    dsimp only
    refine ⟨w, ?_, ?_⟩
    · have hspec : specDustRecipient (ShareDataKey.get_share sc) s.shareholders =
          specDustRecipient (ShareDataKey.get_share s) s.shareholders := by
        unfold specDustRecipient
        refine find?_congr _ _ _ ?_
        intro x hx
        simp only [hsc_share]
      rw [← hspec]
      unfold specDustRecipient
      rw [← option_match_id (List.find? _ s.shareholders), ← hchar]
    · have halloc : AllocationDataKey.get_allocation
          (emit (emit (AllocationDataKey.save_allocation sloop w tok
            ((AllocationDataKey.get_allocation sloop w tok).getD 0 + (afs - td)))
            (.distDust w tok (afs - td)))
            (.distTotal tok (td + (afs - td)))) w tok =
          some ((AllocationDataKey.get_allocation sloop w tok).getD 0 + (afs - td)) := by
        show AllocationDataKey.get_allocation
          (AllocationDataKey.save_allocation sloop w tok
            ((AllocationDataKey.get_allocation sloop w tok).getD 0 + (afs - td))) w tok = _
        unfold AllocationDataKey.get_allocation
        rw [save_allocation_allocations, alookup_aset_self]
      refine halloc.trans ?_
      have hcA := hcongr.2.2.1
      have hcT := congrArg (fun x => x.1) hcongr.1
      dsimp only at hcA hcT
      rw [get_allocation_congr sloop _ w tok hcA, hcT]

theorem sumTok_aremove_ne (l : List ((Addr × Addr) × Int)) (k : Addr × Addr) (t : Addr)
    (hk : k.2 ≠ t) : sumTok (aremove l k) t = sumTok l t := by
  induction l with
  | nil => rfl
  | cons q u ih =>
      by_cases hq : q.1 = k
      · have : aremove (q :: u) k = aremove u k := by
          simp [aremove, List.filter_cons, hq]
        rw [this, ih]
        have hqt : ¬ q.1.2 = t := hq ▸ hk
        simp [sumTok, hqt]
      · have : aremove (q :: u) k = q :: aremove u k := by
          simp [aremove, List.filter_cons, hq]
        rw [this]
        simp only [sumTok, ih]

theorem mem_aremove_ne (l : List ((Addr × Addr) × Int)) (k : Addr × Addr)
    (p : (Addr × Addr) × Int) (hp : p ∈ aremove l k) : p ∈ l :=
  List.mem_of_mem_filter hp

/-- A credit through save_allocation (writing `old + amount` with positive
amount) preserves the AllocationLedger invariant for every token. -/
theorem allocInvariant_save_credit (s : Store) (h tok t : Addr) (amount : Int)
    (ham : 0 < amount) (hinv : allocInvariant s t) :
    allocInvariant (AllocationDataKey.save_allocation s h tok
      ((AllocationDataKey.get_allocation s h tok).getD 0 + amount)) t := by
  rcases hinv with ⟨hpos, htot⟩
  simp only [sumAllocations] at htot
  simp only [allocInvariant, sumAllocations]
  have hsumnn : 0 ≤ sumTok s.allocations t :=
    sumTok_nonneg _ _ (fun p hp ht => le_of_lt (hpos p hp ht))
  by_cases htk : t = tok
  · subst htk
    constructor
    · intro p hp hpt
      rcases mem_save_allocation s h t _ p hp with rfl | hmem
      · dsimp only
        rcases halo : AllocationDataKey.get_allocation s h t with _ | v
        · simp only [halo, Option.getD_none]
          omega
        · have := hpos _ (alookup_mem _ _ _ halo) rfl
          simp only [halo, Option.getD_some]
          omega
      · exact hpos p hmem hpt
    · have hT : 0 ≤ (AllocationDataKey.get_total_allocation s t).getD 0 := by
        rw [htot]
        by_cases h0 : sumTok s.allocations t = 0
        · simp [h0]
        · simp only [if_neg h0, Option.getD_some]
          omega
      rw [save_allocation_total_of_credit s h t amount ham hT]
      have hsum' : sumTok (AllocationDataKey.save_allocation s h t
          ((AllocationDataKey.get_allocation s h t).getD 0 + amount)).allocations t =
          sumTok s.allocations t + amount := by
        rw [save_allocation_allocations, sumTok_aset_eq _ _ _ _ rfl]
        unfold AllocationDataKey.get_allocation
        ring
      rw [hsum']
      rw [if_neg (by omega : ¬ sumTok s.allocations t + amount = 0)]
      congr 1
      rw [htot]
      by_cases h0 : sumTok s.allocations t = 0
      · simp [h0]
      · simp only [if_neg h0, Option.getD_some]
  · constructor
    · intro p hp hpt
      rcases mem_save_allocation s h tok _ p hp with rfl | hmem
      · exact absurd hpt.symm htk
      · exact hpos p hmem hpt
    · have hsum' : sumTok (AllocationDataKey.save_allocation s h tok
          ((AllocationDataKey.get_allocation s h tok).getD 0 + amount)).allocations t =
          sumTok s.allocations t := by
        rw [save_allocation_allocations]
        exact filterTok_aset_ne _ _ _ _ (Ne.symm htk)
      rw [hsum', save_allocation_total_ne s h tok _ t htk, htot]

theorem allocInvariant_save_ne (s : Store) (h tok t : Addr) (v : Int) (htk : ¬ t = tok)
    (hinv : allocInvariant s t) :
    allocInvariant (AllocationDataKey.save_allocation s h tok v) t := by
  rcases hinv with ⟨hpos, htot⟩
  simp only [sumAllocations] at htot
  simp only [allocInvariant, sumAllocations]
  constructor
  · intro p hp hpt
    rcases mem_save_allocation s h tok _ p hp with rfl | hmem
    · exact absurd hpt.symm htk
    · exact hpos p hmem hpt
  · have hsum' : sumTok (AllocationDataKey.save_allocation s h tok v).allocations t =
        sumTok s.allocations t := by
      rw [save_allocation_allocations]
      exact filterTok_aset_ne _ _ _ _ (Ne.symm htk)
    rw [hsum', save_allocation_total_ne s h tok _ t htk, htot]

theorem allocInvariant_save_debit (s : Store) (h tok t : Addr) (amount : Int)
    (ham : 0 < amount) (hlt : amount < (AllocationDataKey.get_allocation s h tok).getD 0)
    (hinv : allocInvariant s tok) (hinvt : allocInvariant s t) :
    allocInvariant (AllocationDataKey.save_allocation s h tok
      ((AllocationDataKey.get_allocation s h tok).getD 0 - amount)) t := by
  by_cases htk : t = tok
  · subst htk
    rcases hinv with ⟨hpos, htot⟩
    simp only [sumAllocations] at htot
    simp only [allocInvariant, sumAllocations]
    rcases halo : AllocationDataKey.get_allocation s h t with _ | a
    · rw [halo] at hlt
      simp only [Option.getD_none] at hlt
      omega
    · simp only [halo, Option.getD_some] at hlt ⊢
      have hale : a ≤ sumTok s.allocations t :=
        value_le_sumTok _ _ _ _ rfl (fun p hp ht => le_of_lt (hpos p hp ht)) halo
      have hsumpos : 0 < sumTok s.allocations t := by omega
      constructor
      · intro p hp hpt
        rcases mem_save_allocation s h t _ p hp with rfl | hmem
        · dsimp only
          omega
        · exact hpos p hmem hpt
      · have halo' : alookup s.allocations (h, t) = some a := halo
        have hsum' : sumTok (AllocationDataKey.save_allocation s h t
            (a - amount)).allocations t = sumTok s.allocations t - amount := by
          rw [save_allocation_allocations, sumTok_aset_eq _ _ _ _ rfl, halo']
          simp only [Option.getD_some]
          ring
        rw [hsum']
        rw [if_neg (by omega : ¬ sumTok s.allocations t - amount = 0)]
        unfold AllocationDataKey.get_total_allocation
        rw [save_allocation_totals_formula]
        unfold AllocationDataKey.get_allocation at halo
        rw [halo]
        simp only [Option.getD_some]
        rw [if_pos (by omega : a - amount - a ≠ 0)]
        unfold AllocationDataKey.get_total_allocation at htot
        rw [htot, if_neg (by omega : ¬ sumTok s.allocations t = 0)]
        dsimp only
        rw [if_neg (by omega : ¬ sumTok s.allocations t + (a - amount - a) ≤ 0)]
        rw [alookup_aset_self]
        congr 1
        ring
  · exact allocInvariant_save_ne s h tok t _ htk hinvt

theorem remove_allocation_spec (s : Store) (h tok : Addr) (a : Int)
    (halo : AllocationDataKey.get_allocation s h tok = some a) :
    ∃ s', AllocationDataKey.remove_allocation s h tok = some s' ∧
      s'.allocations = aremove s.allocations (h, tok) ∧
      s'.totalAllocations =
        (match AllocationDataKey.get_total_allocation s tok with
         | some total => if total - a = 0 then aremove s.totalAllocations tok
                         else aset s.totalAllocations tok (total - a)
         | none => s.totalAllocations) ∧
      s'.self = s.self ∧ s'.config = s.config ∧ s'.shareholders = s.shareholders ∧
      s'.shares = s.shares ∧ s'.listings = s.listings ∧
      s'.activeListings = s.activeListings ∧ s'.commission = s.commission ∧
      s'.ledger = s.ledger ∧ s'.events = s.events := by
  unfold AllocationDataKey.remove_allocation
  rcases hT : AllocationDataKey.get_total_allocation s tok with _ | total
  · exact ⟨_, rfl, rfl, rfl, rfl, rfl, rfl, rfl, rfl, rfl, rfl, rfl, rfl⟩
  · rw [halo]
    dsimp only
    by_cases h0 : total - a = 0
    · rw [if_pos h0]
      refine ⟨_, rfl, rfl, ?_, rfl, rfl, rfl, rfl, rfl, rfl, rfl, rfl, rfl⟩
      rw [if_pos h0]
      rfl
    · rw [if_neg h0]
      refine ⟨_, rfl, rfl, ?_, rfl, rfl, rfl, rfl, rfl, rfl, rfl, rfl, rfl⟩
      rw [if_neg h0]
      rfl

theorem allocInvariant_remove (s : Store) (h tok t : Addr)
    (halloc : 0 < (AllocationDataKey.get_allocation s h tok).getD 0)
    (hnd : (s.allocations.map fun p => p.1).Nodup)
    (hinv : allocInvariant s tok) (hinvt : allocInvariant s t) :
    ∃ s', AllocationDataKey.remove_allocation s h tok = some s' ∧ allocInvariant s' t := by
  rcases halo : AllocationDataKey.get_allocation s h tok with _ | a
  · rw [halo] at halloc
    simp at halloc
  · rw [halo] at halloc
    simp only [Option.getD_some] at halloc
    rcases remove_allocation_spec s h tok a halo with
      ⟨s', hs', hallocs, htots, -, -, -, -, -, -, -, -, -⟩
    refine ⟨s', hs', ?_⟩
    rcases hinv with ⟨hposk, htotk⟩
    rcases hinvt with ⟨hpos, htot⟩
    simp only [sumAllocations] at htotk htot
    simp only [allocInvariant, sumAllocations]
    have halo' : alookup s.allocations (h, tok) = some a := halo
    have hale : a ≤ sumTok s.allocations tok :=
      value_le_sumTok _ _ _ _ rfl (fun p hp ht => le_of_lt (hposk p hp ht)) halo'
    have hsumk : 0 < sumTok s.allocations tok := by omega
    constructor
    · intro p hp hpt
      rw [hallocs] at hp
      exact hpos p (mem_aremove_ne _ _ _ hp) hpt
    · by_cases htk : t = tok
      · subst htk
        have hsum' : sumTok s'.allocations t = sumTok s.allocations t - a := by
          rw [hallocs]
          exact sumTok_aremove_eq _ _ _ _ rfl hnd halo'
        rw [hsum']
        unfold AllocationDataKey.get_total_allocation
        rw [htots, htotk, if_neg (by omega : ¬ sumTok s.allocations t = 0)]
        dsimp only
        by_cases h0 : sumTok s.allocations t - a = 0
        · rw [if_pos h0, if_pos h0]
          exact alookup_aremove_self _ _
        · rw [if_neg h0, if_neg h0]
          exact alookup_aset_self _ _ _
      · have hsum' : sumTok s'.allocations t = sumTok s.allocations t := by
          rw [hallocs]
          exact sumTok_aremove_ne _ _ _ (Ne.symm htk)
        rw [hsum']
        unfold AllocationDataKey.get_total_allocation
        rw [htots, htotk, if_neg (by omega : ¬ sumTok s.allocations tok = 0)]
        dsimp only
        by_cases h0 : sumTok s.allocations tok - a = 0
        · rw [if_pos h0, alookup_aremove_ne _ _ _ htk]
          exact htot
        · rw [if_neg h0, alookup_aset_ne _ _ _ _ htk]
          exact htot

theorem dist_loop_invariant (tok : Addr) (afs : Int) :
    ∀ (hs : List Addr) (s : Store) (td : Int) (l : Option Addr) (ls : Int) (t : Addr),
    allocInvariant s t →
    allocInvariant (execute.dist_loop tok afs s hs td l ls).1 t := by
  intro hs
  induction hs with
  | nil => intro s td l ls t hinv; exact hinv
  | cons h rest ih =>
      intro s td l ls t hinv
      unfold execute.dist_loop
      rcases hg : ShareDataKey.get_share s h with _ | share
      · exact ih s td l ls t hinv
      · dsimp only
        by_cases ham : Int.tdiv (afs * share) 10000 > 0
        · rw [if_pos ham]
          refine ih _ _ _ _ t ?_
          exact allocInvariant_save_credit s h tok t _ ham hinv
        · rw [if_neg ham]
          exact ih s td _ _ t hinv

/-! ### Operations other than distribute/withdraw leave the AllocationLedger alone -/

theorem fold_save_share_untouched :
    ∀ (l : List ShareDataKey) (s : Store),
    ((l.foldl (fun acc r => ShareDataKey.save_share acc r.shareholder r.share) s)).allocations
      = s.allocations ∧
    ((l.foldl (fun acc r => ShareDataKey.save_share acc r.shareholder r.share)
      s)).totalAllocations = s.totalAllocations := by
  intro l
  induction l with
  | nil => intro s; exact ⟨rfl, rfl⟩
  | cons r t ih =>
      intro s
      simp only [List.foldl_cons]
      exact ⟨(ih _).1, (ih _).2⟩

theorem fold_remove_share_untouched :
    ∀ (l : List Addr) (s : Store),
    ((l.foldl (fun acc h => ShareDataKey.remove_share acc h) s)).allocations
      = s.allocations ∧
    ((l.foldl (fun acc h => ShareDataKey.remove_share acc h) s)).totalAllocations
      = s.totalAllocations := by
  intro l
  induction l with
  | nil => intro s; exact ⟨rfl, rfl⟩
  | cons r t ih =>
      intro s
      simp only [List.foldl_cons]
      exact ⟨(ih _).1, (ih _).2⟩

theorem update_shares_helper_untouched (shares : List ShareDataKey) (s : Store) :
    (helpers.update_shares s shares).allocations = s.allocations ∧
    (helpers.update_shares s shares).totalAllocations = s.totalAllocations := by
  unfold helpers.update_shares
  dsimp only
  exact ⟨(fold_save_share_untouched shares s).1, (fold_save_share_untouched shares s).2⟩

theorem reset_shares_untouched (s : Store) :
    (helpers.reset_shares s).allocations = s.allocations ∧
    (helpers.reset_shares s).totalAllocations = s.totalAllocations := by
  unfold helpers.reset_shares
  dsimp only
  exact ⟨(fold_remove_share_untouched _ s).1, (fold_remove_share_untouched _ s).2⟩

theorem init_alloc_untouched (s : Store) (admin : Addr) (shares : List ShareDataKey)
    (mutFlag : Bool) :
    (execute.init s admin shares mutFlag).2.allocations = s.allocations ∧
    (execute.init s admin shares mutFlag).2.totalAllocations = s.totalAllocations := by
  unfold execute.init
  by_cases h1 : s.config.isSome
  · rw [if_pos h1]
    exact ⟨rfl, rfl⟩
  rw [if_neg h1]
  rcases h2 : helpers.check_shares shares with _ | e
  · dsimp only
    have := update_shares_helper_untouched shares { s with config := some ⟨admin, mutFlag⟩ }
    exact ⟨this.1, this.2⟩
  · exact ⟨rfl, rfl⟩

theorem update_shares_alloc_untouched (s : Store) (shares : List ShareDataKey) :
    (execute.update_shares s shares).2.allocations = s.allocations ∧
    (execute.update_shares s shares).2.totalAllocations = s.totalAllocations := by
  unfold execute.update_shares
  by_cases h1 : s.config.isNone
  · rw [if_pos h1]
    exact ⟨rfl, rfl⟩
  rw [if_neg h1]
  by_cases h2 : ¬ ConfigDataKey.is_contract_locked s
  · rw [if_pos h2]
    exact ⟨rfl, rfl⟩
  rw [if_neg h2]
  rcases h3 : helpers.check_shares shares with _ | e
  · dsimp only
    have ha := update_shares_helper_untouched shares (helpers.reset_shares s)
    have hb := reset_shares_untouched s
    exact ⟨ha.1.trans hb.1, ha.2.trans hb.2⟩
  · exact ⟨rfl, rfl⟩

theorem transfer_shares_alloc_untouched (s : Store) (sender recipient : Addr) (amt : Int) :
    (execute.transfer_shares s sender recipient amt).2.allocations = s.allocations ∧
    (execute.transfer_shares s sender recipient amt).2.totalAllocations
      = s.totalAllocations := by
  unfold execute.transfer_shares
  by_cases h1 : s.config.isNone
  · rw [if_pos h1]
    exact ⟨rfl, rfl⟩
  rw [if_neg h1]
  by_cases h2 : sender = recipient
  · rw [if_pos h2]
    exact ⟨rfl, rfl⟩
  rw [if_neg h2]
  by_cases h3 : amt ≤ 0
  · rw [if_pos h3]
    exact ⟨rfl, rfl⟩
  rw [if_neg h3]
  rcases h4 : ShareDataKey.get_share s sender with _ | sender_share
  · exact ⟨rfl, rfl⟩
  dsimp only
  by_cases h5 : sender_share < amt
  · rw [if_pos h5]
    exact ⟨rfl, rfl⟩
  rw [if_neg h5] <;>
  (by_cases h6 : sender_share - amt = 0 <;> [rw [if_pos h6]; rw [if_neg h6]]) <;>
  (rcases h7 : ShareDataKey.get_share s recipient with _ | recipient_share) <;>
  (constructor <;>
    simp [emit, ShareDataKey.save_share, ShareDataKey.save_shareholders,
      ShareDataKey.remove_share, SaleListingDataKey.save_listing,
      SaleListingDataKey.remove_listing, SaleListingDataKey.add_to_active_listings,
      SaleListingDataKey.remove_from_active_listings, apply_ite, ite_self])

theorem list_shares_alloc_untouched (s : Store) (seller : Addr) (amt price : Int)
    (ptok : Addr) :
    (execute.list_shares_for_sale s seller amt price ptok).2.allocations = s.allocations ∧
    (execute.list_shares_for_sale s seller amt price ptok).2.totalAllocations
      = s.totalAllocations := by
  unfold execute.list_shares_for_sale
  by_cases h1 : amt ≤ 0
  · rw [if_pos h1]
    exact ⟨rfl, rfl⟩
  rw [if_neg h1]
  by_cases h2 : price ≤ 0
  · rw [if_pos h2]
    exact ⟨rfl, rfl⟩
  rw [if_neg h2]
  rcases h3 : ShareDataKey.get_share s seller with _ | seller_share
  · exact ⟨rfl, rfl⟩
  dsimp only
  by_cases h4 : seller_share < amt
  · rw [if_pos h4]
    exact ⟨rfl, rfl⟩
  rw [if_neg h4]
  constructor <;>
    simp [emit, SaleListingDataKey.save_listing,
      SaleListingDataKey.add_to_active_listings, apply_ite, ite_self]

theorem cancel_alloc_untouched (s : Store) (seller : Addr) :
    (execute.cancel_listing s seller).2.allocations = s.allocations ∧
    (execute.cancel_listing s seller).2.totalAllocations = s.totalAllocations := by
  unfold execute.cancel_listing
  rcases h1 : SaleListingDataKey.get_listing s seller with _ | listing
  · exact ⟨rfl, rfl⟩
  constructor <;>
    simp [emit, SaleListingDataKey.remove_listing,
      SaleListingDataKey.remove_from_active_listings, apply_ite, ite_self]

theorem buy_alloc_untouched (s : Store) (buyer seller : Addr) (amt : Int) :
    (execute.buy_shares s buyer seller amt).2.allocations = s.allocations ∧
    (execute.buy_shares s buyer seller amt).2.totalAllocations = s.totalAllocations := by
  unfold execute.buy_shares
  by_cases h1 : amt ≤ 0
  · rw [if_pos h1]
    exact ⟨rfl, rfl⟩
  rw [if_neg h1]
  by_cases h2 : buyer = seller
  · rw [if_pos h2]
    exact ⟨rfl, rfl⟩
  rw [if_neg h2]
  rcases h3 : SaleListingDataKey.get_listing s seller with _ | listing
  · exact ⟨rfl, rfl⟩
  dsimp only
  by_cases h4 : amt > listing.shares_for_sale
  · rw [if_pos h4]
    exact ⟨rfl, rfl⟩
  rw [if_neg h4]
  rcases h5 : checked_mul amt listing.price_per_share with _ | total_price
  · exact ⟨rfl, rfl⟩
  dsimp only
  rcases h6 : CommissionConfig.get s with ⟨cfg, s0⟩
  have hs0 : s0.allocations = s.allocations ∧ s0.totalAllocations = s.totalAllocations ∧
      s0.shares = s.shares := by
    unfold CommissionConfig.get at h6
    rcases hcom : s.commission with _ | c
    · rw [hcom] at h6
      cases h6
      exact ⟨rfl, rfl, rfl⟩
    · rw [hcom] at h6
      cases h6
      exact ⟨rfl, rfl, rfl⟩
  dsimp only
  by_cases h7 : total_price - CommissionConfig.calculate_commission total_price
      cfg.buy_rate_bps > 0 <;>
    [rw [if_pos h7]; rw [if_neg h7]] <;>
  (by_cases h8 : CommissionConfig.calculate_commission total_price cfg.buy_rate_bps > 0 <;>
    [rw [if_pos h8]; rw [if_neg h8]]) <;>
  (rcases h9 : ShareDataKey.get_share _ seller with _ | seller_share
   · exact ⟨hs0.1, hs0.2.1⟩) <;>
  dsimp only <;>
  (by_cases h10 : seller_share - amt > 0 <;> [rw [if_pos h10]; rw [if_neg h10]]) <;>
  (rcases h11 : ShareDataKey.get_share _ buyer with _ | buyer_share) <;>
  dsimp only <;>
  (by_cases h12 : listing.shares_for_sale - amt > 0 <;>
    [rw [if_pos h12]; rw [if_neg h12]]) <;>
  (constructor <;>
    simp [emit, ShareDataKey.save_share, ShareDataKey.save_shareholders,
      ShareDataKey.remove_share, token_transfer, SaleListingDataKey.save_listing,
      SaleListingDataKey.remove_listing, SaleListingDataKey.add_to_active_listings,
      SaleListingDataKey.remove_from_active_listings, apply_ite, ite_self,
      hs0.1, hs0.2.1])

theorem allocInvariant_congr (s1 s2 : Store) (t : Addr)
    (ha : s1.allocations = s2.allocations)
    (ht : s1.totalAllocations = s2.totalAllocations)
    (hinv : allocInvariant s1 t) : allocInvariant s2 t := by
  rcases hinv with ⟨hpos, htot⟩
  constructor
  · intro p hp hpt
    exact hpos p (ha ▸ hp) hpt
  · unfold AllocationDataKey.get_total_allocation at htot ⊢
    unfold sumAllocations sumTok at htot ⊢
    rw [← ha, ← ht]
    exact htot

theorem storeWF_congr (s1 s2 : Store)
    (ha : s1.allocations = s2.allocations)
    (ht : s1.totalAllocations = s2.totalAllocations)
    (h : StoreWF s1) : StoreWF s2 := by
  rcases h with ⟨h1, h2⟩
  exact ⟨ha ▸ h1, ht ▸ h2⟩

theorem withdraw_preserves (s : Store) (tok_addr sh : Addr) (amt : Int)
    (hwf : StoreWF s) (hinv : ∀ t, allocInvariant s t) :
    StoreWF (execute.withdraw_allocation s tok_addr sh amt).2 ∧
    (∀ t, allocInvariant (execute.withdraw_allocation s tok_addr sh amt).2 t) := by
  unfold execute.withdraw_allocation
  by_cases h1 : s.config.isNone
  · rw [if_pos h1]
    exact ⟨hwf, hinv⟩
  rw [if_neg h1]
  by_cases h2 : amt ≤ 0
  · rw [if_pos h2]
    exact ⟨hwf, hinv⟩
  rw [if_neg h2]
  dsimp only
  by_cases h3 : (AllocationDataKey.get_allocation s sh tok_addr).getD 0 < amt
  · rw [if_pos h3]
    exact ⟨hwf, hinv⟩
  rw [if_neg h3]
  have halloc : 0 < (AllocationDataKey.get_allocation s sh tok_addr).getD 0 := by omega
  by_cases h4 : (AllocationDataKey.get_allocation s sh tok_addr).getD 0 - amt = 0
  · rw [if_pos h4]
    rcases allocInvariant_remove s sh tok_addr tok_addr halloc hwf.1 (hinv tok_addr)
      (hinv tok_addr) with ⟨s', hs', -⟩
    rcases halo : AllocationDataKey.get_allocation s sh tok_addr with _ | a
    · rw [halo] at halloc
      simp at halloc
    rcases remove_allocation_spec s sh tok_addr a halo with
      ⟨s'', hs'', hallocs, htots, -, -, -, -, -, -, -, -, -⟩
    rw [hs'']
    dsimp only
    have hwf' : StoreWF s'' := by
      constructor
      · rw [hallocs]
        exact keys_aremove_nodup _ _ hwf.1
      · rw [htots]
        rcases AllocationDataKey.get_total_allocation s tok_addr with _ | total
        · exact hwf.2
        · dsimp only
          split
          · exact keys_aremove_nodup _ _ hwf.2
          · exact keys_aset_nodup _ _ _ hwf.2
    have hinv' : ∀ t, allocInvariant s'' t := by
      intro t
      rcases allocInvariant_remove s sh tok_addr t halloc hwf.1 (hinv tok_addr)
        (hinv t) with ⟨s3, hs3, hinv3⟩
      rw [hs''] at hs3
      cases hs3
      exact hinv3
    refine ⟨storeWF_congr s'' _ ?_ ?_ hwf', fun t => allocInvariant_congr s'' _ t ?_ ?_
      (hinv' t)⟩
    · exact (token_transfer_stable s'' tok_addr s''.self sh amt).2.2.2.2.1.symm
    · exact (token_transfer_stable s'' tok_addr s''.self sh amt).2.2.2.2.2.1.symm
    · exact (token_transfer_stable s'' tok_addr s''.self sh amt).2.2.2.2.1.symm
    · exact (token_transfer_stable s'' tok_addr s''.self sh amt).2.2.2.2.2.1.symm
  · rw [if_neg h4]
    have hlt : amt < (AllocationDataKey.get_allocation s sh tok_addr).getD 0 := by omega
    have hinv' : ∀ t, allocInvariant (AllocationDataKey.save_allocation s sh tok_addr
        ((AllocationDataKey.get_allocation s sh tok_addr).getD 0 - amt)) t :=
      fun t => allocInvariant_save_debit s sh tok_addr t amt (by omega) hlt
        (hinv tok_addr) (hinv t)
    have hwf' : StoreWF (AllocationDataKey.save_allocation s sh tok_addr
        ((AllocationDataKey.get_allocation s sh tok_addr).getD 0 - amt)) := by
      constructor
      · rw [save_allocation_allocations]
        exact keys_aset_nodup _ _ _ hwf.1
      · exact save_allocation_totals_nodup _ _ _ _ hwf.2
    exact ⟨⟨hwf'.1, hwf'.2⟩, fun t => allocInvariant_congr _ _ t rfl rfl (hinv' t)⟩

theorem distribute_preserves (s : Store) (tok_addr : Addr)
    (hwf : StoreWF s) (hinv : ∀ t, allocInvariant s t) :
    StoreWF (execute.distribute_tokens s tok_addr).2 ∧
    (∀ t, allocInvariant (execute.distribute_tokens s tok_addr).2 t) := by
  unfold execute.distribute_tokens
  by_cases h1 : s.config.isNone
  · rw [if_pos h1]
    exact ⟨hwf, hinv⟩
  rw [if_neg h1]
  by_cases h2 : token_balance s s.self tok_addr -
      (AllocationDataKey.get_total_allocation s tok_addr).getD 0 ≤ 0
  · rw [if_pos h2]
    exact ⟨hwf, hinv⟩
  rw [if_neg h2]
  rcases h6 : CommissionConfig.get s with ⟨cfg, s0⟩
  have hs0 : s0.allocations = s.allocations ∧ s0.totalAllocations = s.totalAllocations := by
    unfold CommissionConfig.get at h6
    rcases hcom : s.commission with _ | c
    · rw [hcom] at h6
      cases h6
      exact ⟨rfl, rfl⟩
    · rw [hcom] at h6
      cases h6
      exact ⟨rfl, rfl⟩
  dsimp only
  have hwf0 : StoreWF s0 := storeWF_congr s s0 hs0.1.symm hs0.2.symm hwf
  have hinv0 : ∀ t, allocInvariant s0 t :=
    fun t => allocInvariant_congr s s0 t hs0.1.symm hs0.2.symm (hinv t)
  set d := token_balance s s.self tok_addr -
    (AllocationDataKey.get_total_allocation s tok_addr).getD 0 with hddef
  set cm := CommissionConfig.calculate_commission d cfg.distribution_rate_bps with hcmdef
  set sc := (if cm > 0 then
      emit (token_transfer s0 tok_addr s0.self cfg.recipient cm)
        (Event.distCommission tok_addr cfg.recipient cm)
    else s0) with hscdef
  have hscf : sc.allocations = s0.allocations ∧ sc.totalAllocations = s0.totalAllocations := by
    rw [hscdef]
    split
    · exact ⟨rfl, rfl⟩
    · exact ⟨rfl, rfl⟩
  have hwfc : StoreWF sc := storeWF_congr s0 sc hscf.1.symm hscf.2.symm hwf0
  have hinvc : ∀ t, allocInvariant sc t :=
    fun t => allocInvariant_congr s0 sc t hscf.1.symm hscf.2.symm (hinv0 t)
  by_cases h3 : d - cm ≤ 0
  · rw [if_pos h3]
    exact ⟨hwfc, hinvc⟩
  rw [if_neg h3]
  have hloopinv := fun t => dist_loop_invariant tok_addr (d - cm)
    (ShareDataKey.get_shareholders sc) sc 0 none 0 t (hinvc t)
  have hloopwf := dist_loop_nodup tok_addr (d - cm)
    (ShareDataKey.get_shareholders sc) sc 0 none 0 hwfc.1 hwfc.2
  generalize hres : execute.dist_loop tok_addr (d - cm) sc
    (ShareDataKey.get_shareholders sc) 0 none 0 = res at hloopinv hloopwf ⊢
  obtain ⟨sloop, td, largest, lsh⟩ := res
  dsimp only at hloopinv hloopwf ⊢
  by_cases h4 : d - cm - td > 0
  · rw [if_pos h4]
    rcases largest with _ | w
    · dsimp only
      exact ⟨⟨hloopwf.1, hloopwf.2⟩, hloopinv⟩
    · dsimp only
      have hinvd : ∀ t, allocInvariant (AllocationDataKey.save_allocation sloop w tok_addr
          ((AllocationDataKey.get_allocation sloop w tok_addr).getD 0 + (d - cm - td))) t :=
        fun t => allocInvariant_save_credit sloop w tok_addr t _ h4 (hloopinv t)
      have hwfd : StoreWF (AllocationDataKey.save_allocation sloop w tok_addr
          ((AllocationDataKey.get_allocation sloop w tok_addr).getD 0 + (d - cm - td))) := by
        constructor
        · rw [save_allocation_allocations]
          exact keys_aset_nodup _ _ _ hloopwf.1
        · exact save_allocation_totals_nodup _ _ _ _ hloopwf.2
      exact ⟨⟨hwfd.1, hwfd.2⟩, fun t => allocInvariant_congr _ _ t rfl rfl (hinvd t)⟩
  · rw [if_neg h4]
    dsimp only
    exact ⟨⟨hloopwf.1, hloopwf.2⟩, hloopinv⟩

/-- C4: the per-asset TotalAllocationRecord always equals the sum of the
per-holder AllocationRecords (absent meaning zero, with all stored records
positive): save_allocation adjusts the total by exactly delta = new - old,
removing the record when it would drop to zero or below; remove_allocation
decrements the total by the holder's current allocation; and every entry
point preserves the invariant (distribute_tokens and withdraw_allocation by
the delta discipline, the remaining operations by never touching the
ledger). -/
theorem C4_total_allocation_invariant :
    (∀ (s : Store) (h tok : Addr) (v : Int),
      AllocationDataKey.get_allocation (AllocationDataKey.save_allocation s h tok v) h tok
        = some v ∧
      AllocationDataKey.get_total_allocation (AllocationDataKey.save_allocation s h tok v)
        tok =
        (if v - (AllocationDataKey.get_allocation s h tok).getD 0 = 0 then
           AllocationDataKey.get_total_allocation s tok
         else
           match AllocationDataKey.get_total_allocation s tok with
           | some total =>
               if total + (v - (AllocationDataKey.get_allocation s h tok).getD 0) ≤ 0 then
                 none
               else some (total + (v - (AllocationDataKey.get_allocation s h tok).getD 0))
           | none =>
               if 0 < v - (AllocationDataKey.get_allocation s h tok).getD 0 then
                 some (v - (AllocationDataKey.get_allocation s h tok).getD 0)
               else none)) ∧
    (∀ (s : Store) (h tok : Addr) (a total : Int),
      AllocationDataKey.get_allocation s h tok = some a →
      AllocationDataKey.get_total_allocation s tok = some total →
      ∃ s', AllocationDataKey.remove_allocation s h tok = some s' ∧
        AllocationDataKey.get_allocation s' h tok = none ∧
        AllocationDataKey.get_total_allocation s' tok =
          (if total - a = 0 then none else some (total - a))) ∧
    (∀ (s : Store) (tok_addr : Addr), StoreWF s → (∀ t, allocInvariant s t) →
      StoreWF (execute.distribute_tokens s tok_addr).2 ∧
      ∀ t, allocInvariant (execute.distribute_tokens s tok_addr).2 t) ∧
    (∀ (s : Store) (tok_addr sh : Addr) (amt : Int), StoreWF s →
      (∀ t, allocInvariant s t) →
      StoreWF (execute.withdraw_allocation s tok_addr sh amt).2 ∧
      ∀ t, allocInvariant (execute.withdraw_allocation s tok_addr sh amt).2 t) ∧
    (∀ (s : Store) (admin : Addr) (shares : List ShareDataKey) (mutFlag : Bool),
      (∀ t, allocInvariant s t) →
      ∀ t, allocInvariant (execute.init s admin shares mutFlag).2 t) ∧
    (∀ (s : Store) (shares : List ShareDataKey), (∀ t, allocInvariant s t) →
      ∀ t, allocInvariant (execute.update_shares s shares).2 t) ∧
    (∀ (s : Store) (sender recipient : Addr) (amt : Int), (∀ t, allocInvariant s t) →
      ∀ t, allocInvariant (execute.transfer_shares s sender recipient amt).2 t) ∧
    (∀ (s : Store) (seller : Addr) (amt price : Int) (ptok : Addr),
      (∀ t, allocInvariant s t) →
      ∀ t, allocInvariant (execute.list_shares_for_sale s seller amt price ptok).2 t) ∧
    (∀ (s : Store) (seller : Addr), (∀ t, allocInvariant s t) →
      ∀ t, allocInvariant (execute.cancel_listing s seller).2 t) ∧
    (∀ (s : Store) (buyer seller : Addr) (amt : Int), (∀ t, allocInvariant s t) →
      ∀ t, allocInvariant (execute.buy_shares s buyer seller amt).2 t) := by
  refine ⟨?_, ?_, ?_, ?_, ?_, ?_, ?_, ?_, ?_, ?_⟩
  · intro s h tok v
    constructor
    · unfold AllocationDataKey.get_allocation
      rw [save_allocation_allocations]
      exact alookup_aset_self _ _ _
    · unfold AllocationDataKey.get_total_allocation
      rw [save_allocation_totals_formula]
      by_cases hdelta : v - (AllocationDataKey.get_allocation s h tok).getD 0 = 0
      · rw [if_neg (by simpa using hdelta), if_pos hdelta]
      · rw [if_pos (by simpa using hdelta), if_neg hdelta]
        unfold AllocationDataKey.get_allocation
        rcases hT : alookup s.totalAllocations tok with _ | total
        · dsimp only
          by_cases hpos : v - (alookup s.allocations (h, tok)).getD 0 > 0
          · rw [if_pos hpos, if_pos hpos]
            exact alookup_aset_self _ _ _
          · rw [if_neg hpos, if_neg (by omega :
              ¬ 0 < v - (alookup s.allocations (h, tok)).getD 0)]
            exact hT
        · dsimp only
          by_cases hle : total + (v - (alookup s.allocations (h, tok)).getD 0) ≤ 0
          · rw [if_pos hle, if_pos hle]
            exact alookup_aremove_self _ _
          · rw [if_neg hle, if_neg hle]
            exact alookup_aset_self _ _ _
  · intro s h tok a total halo htot
    rcases remove_allocation_spec s h tok a halo with
      ⟨s', hs', hallocs, htots, -, -, -, -, -, -, -, -, -⟩
    refine ⟨s', hs', ?_, ?_⟩
    · unfold AllocationDataKey.get_allocation
      rw [hallocs]
      exact alookup_aremove_self _ _
    · unfold AllocationDataKey.get_total_allocation
      rw [htots, htot]
      dsimp only
      by_cases h0 : total - a = 0
      · rw [if_pos h0, if_pos h0]
        exact alookup_aremove_self _ _
      · rw [if_neg h0, if_neg h0]
        exact alookup_aset_self _ _ _
  · exact distribute_preserves
  · exact withdraw_preserves
  · intro s admin shares mutFlag hinv t
    exact allocInvariant_congr s _ t (init_alloc_untouched s admin shares mutFlag).1.symm
      (init_alloc_untouched s admin shares mutFlag).2.symm (hinv t)
  · intro s shares hinv t
    exact allocInvariant_congr s _ t (update_shares_alloc_untouched s shares).1.symm
      (update_shares_alloc_untouched s shares).2.symm (hinv t)
  · intro s sender recipient amt hinv t
    exact allocInvariant_congr s _ t
      (transfer_shares_alloc_untouched s sender recipient amt).1.symm
      (transfer_shares_alloc_untouched s sender recipient amt).2.symm (hinv t)
  · intro s seller amt price ptok hinv t
    exact allocInvariant_congr s _ t
      (list_shares_alloc_untouched s seller amt price ptok).1.symm
      (list_shares_alloc_untouched s seller amt price ptok).2.symm (hinv t)
  · intro s seller hinv t
    exact allocInvariant_congr s _ t (cancel_alloc_untouched s seller).1.symm
      (cancel_alloc_untouched s seller).2.symm (hinv t)
  · intro s buyer seller amt hinv t
    exact allocInvariant_congr s _ t (buy_alloc_untouched s buyer seller amt).1.symm
      (buy_alloc_untouched s buyer seller amt).2.symm (hinv t)

theorem dup_after_iff (a : Addr) (rest : List ShareDataKey) :
    helpers.dup_after a rest = true ↔ a ∈ rest.map fun r => r.shareholder := by
  unfold helpers.dup_after
  rw [List.any_eq_true]
  constructor
  · rintro ⟨r, hmem, hr⟩
    simp only [decide_eq_true_eq] at hr
    exact List.mem_map.mpr ⟨r, hmem, hr⟩
  · intro hmem
    rcases List.mem_map.mp hmem with ⟨r, hmem2, hr⟩
    exact ⟨r, hmem2, by simp [hr]⟩

theorem check_shares_go_sound : ∀ (l : List ShareDataKey) (t T : Int),
    helpers.check_shares_go l t = .ok T →
    (∀ r ∈ l, 0 ≤ r.share) ∧ ((l.map fun r => r.shareholder).Nodup) ∧
    T = t + (l.map fun r => r.share).sum := by
  intro l
  induction l with
  | nil =>
      intro t T h
      simp only [helpers.check_shares_go] at h
      cases h
      refine ⟨by simp, by simp, by simp⟩
  | cons r rest ih =>
      intro t T h
      simp only [helpers.check_shares_go] at h
      by_cases h1 : r.share < 0
      · rw [if_pos h1] at h
        cases h
      rw [if_neg h1] at h
      by_cases h2 : helpers.dup_after r.shareholder rest
      · rw [if_pos h2] at h
        cases h
      rw [if_neg h2] at h
      rcases ih (t + r.share) T h with ⟨hnn, hnd, hT⟩
      refine ⟨?_, ?_, ?_⟩
      · intro q hq
        rcases List.mem_cons.mp hq with rfl | hq2
        · omega
        · exact hnn q hq2
      · simp only [List.map_cons, List.nodup_cons]
        refine ⟨fun hmem => h2 ((dup_after_iff _ _).mpr hmem), hnd⟩
      · simp only [List.map_cons, List.sum_cons]
        omega

theorem check_shares_go_complete : ∀ (l : List ShareDataKey) (t : Int),
    (∀ r ∈ l, 0 ≤ r.share) → ((l.map fun r => r.shareholder).Nodup) →
    helpers.check_shares_go l t = .ok (t + (l.map fun r => r.share).sum) := by
  intro l
  induction l with
  | nil => intro t _ _; simp [helpers.check_shares_go]
  | cons r rest ih =>
      intro t hnn hnd
      simp only [List.map_cons, List.nodup_cons] at hnd
      simp only [helpers.check_shares_go]
      rw [if_neg (by
        have := hnn r (List.mem_cons_self r rest)
        omega)]
      rw [if_neg (fun hdup => hnd.1 ((dup_after_iff _ _).mp hdup))]
      rw [ih (t + r.share) (fun q hq => hnn q (List.mem_cons_of_mem r hq)) hnd.2]
      simp only [List.map_cons, List.sum_cons]
      congr 1
      ring

theorem check_shares_go_error : ∀ (l : List ShareDataKey) (t : Int) (e : Error),
    helpers.check_shares_go l t = .error e →
    (e = .NegativeShareAmount ∧ ∃ r ∈ l, r.share < 0) ∨
    (e = .DuplicateShareholder ∧ ¬ ((l.map fun r => r.shareholder).Nodup)) := by
  intro l
  induction l with
  | nil =>
      intro t e h
      simp [helpers.check_shares_go] at h
  | cons r rest ih =>
      intro t e h
      simp only [helpers.check_shares_go] at h
      by_cases h1 : r.share < 0
      · rw [if_pos h1] at h
        cases h
        exact Or.inl ⟨rfl, r, List.mem_cons_self r rest, h1⟩
      rw [if_neg h1] at h
      by_cases h2 : helpers.dup_after r.shareholder rest
      · rw [if_pos h2] at h
        cases h
        refine Or.inr ⟨rfl, ?_⟩
        simp only [List.map_cons, List.nodup_cons, not_and]
        intro hmem
        exact absurd ((dup_after_iff _ _).mp h2) hmem
      rw [if_neg h2] at h
      rcases ih (t + r.share) e h with ⟨rfl, q, hq, hqneg⟩ | ⟨rfl, hnd⟩
      · exact Or.inl ⟨rfl, q, List.mem_cons_of_mem r hq, hqneg⟩
      · refine Or.inr ⟨rfl, ?_⟩
        simp only [List.map_cons, List.nodup_cons, not_and]
        intro _
        exact hnd

/-- C9: share-list validation succeeds exactly when the list is nonempty with
no negative amount, no duplicate shareholder, and total exactly 10000; each
error is only reported when its condition actually holds; and both the init
and the update_shares entry points report exactly the validation verdict. -/
theorem C9_check_shares_validation :
    (∀ shares : List ShareDataKey,
      helpers.check_shares shares = none ↔
        (1 ≤ shares.length ∧ (∀ r ∈ shares, 0 ≤ r.share) ∧
         ((shares.map fun r => r.shareholder).Nodup) ∧
         (shares.map fun r => r.share).sum = 10000)) ∧
    (∀ (shares : List ShareDataKey) (e : Error),
      helpers.check_shares shares = some e →
        (e = .LowShareCount ∧ shares.length < 1) ∨
        (e = .NegativeShareAmount ∧ ∃ r ∈ shares, r.share < 0) ∨
        (e = .DuplicateShareholder ∧ ¬ ((shares.map fun r => r.shareholder).Nodup)) ∨
        (e = .InvalidShareTotal ∧ (shares.map fun r => r.share).sum ≠ 10000)) ∧
    (∀ (s : Store) (admin : Addr) (shares : List ShareDataKey) (mutFlag : Bool),
      s.config = none →
      (execute.init s admin shares mutFlag).1 = helpers.check_shares shares) ∧
    (∀ (s : Store) (shares : List ShareDataKey) (c0 : ConfigDataKey),
      s.config = some c0 → c0.mutable = true →
      (execute.update_shares s shares).1 = helpers.check_shares shares) := by
  refine ⟨?_, ?_, ?_, ?_⟩
  · intro shares
    unfold helpers.check_shares
    constructor
    · intro h
      by_cases hlen : shares.length < 1
      · rw [if_pos hlen] at h
        cases h
      rw [if_neg hlen] at h
      rcases hgo : helpers.check_shares_go shares 0 with e | T
      · rw [hgo] at h
        cases h
      rw [hgo] at h
      dsimp only at h
      rcases check_shares_go_sound shares 0 T hgo with ⟨hnn, hnd, hT⟩
      by_cases hTot : T ≠ 10000
      · rw [if_pos hTot] at h
        cases h
      rw [if_neg hTot] at h
      push_neg at hTot
      exact ⟨by omega, hnn, hnd, by omega⟩
    · rintro ⟨hlen, hnn, hnd, hsum⟩
      rw [if_neg (by omega : ¬ shares.length < 1)]
      rw [check_shares_go_complete shares 0 hnn hnd]
      dsimp only
      rw [if_neg (by omega : ¬ 0 + (shares.map fun r => r.share).sum ≠ 10000)]
  · intro shares e h
    unfold helpers.check_shares at h
    by_cases hlen : shares.length < 1
    · rw [if_pos hlen] at h
      cases h
      exact Or.inl ⟨rfl, hlen⟩
    rw [if_neg hlen] at h
    rcases hgo : helpers.check_shares_go shares 0 with eGo | T
    · rw [hgo] at h
      dsimp only at h
      cases h
      rcases check_shares_go_error shares 0 _ hgo with ⟨rfl, hcond⟩ | ⟨rfl, hcond⟩
      · exact Or.inr (Or.inl ⟨rfl, hcond⟩)
      · exact Or.inr (Or.inr (Or.inl ⟨rfl, hcond⟩))
    rw [hgo] at h
    dsimp only at h
    by_cases hTot : T ≠ 10000
    · rw [if_pos hTot] at h
      cases h
      rcases check_shares_go_sound shares 0 T hgo with ⟨-, -, hT⟩
      exact Or.inr (Or.inr (Or.inr ⟨rfl, by omega⟩))
    · rw [if_neg hTot] at h
      cases h
  · intro s admin shares mutFlag hcfg
    unfold execute.init
    rw [hcfg]
    dsimp only [Option.isSome_none, Bool.false_eq_true, if_false]
    rcases hck : helpers.check_shares shares with _ | e
    · rfl
    · rfl
  · intro s shares c0 hcfg hmut
    unfold execute.update_shares
    rw [hcfg]
    dsimp only [Option.isNone_some, Bool.false_eq_true, if_false]
    have hlock : ConfigDataKey.is_contract_locked s = true := by
      unfold ConfigDataKey.is_contract_locked
      rw [hcfg]
      exact hmut
    rw [hlock]
    simp only [not_true_eq_false, Bool.false_eq_true, if_false]
    rcases hck : helpers.check_shares shares with _ | e
    · rfl
    · rfl

theorem token_transfer_balance_other (s : Store) (tok sender recipient other : Addr)
    (amount : Int) (otok : Addr) (h1 : other ≠ sender) (h2 : other ≠ recipient) :
    token_balance (token_transfer s tok sender recipient amount) other otok =
      token_balance s other otok := by
  unfold token_transfer token_balance
  dsimp only
  rw [alookup_aset_ne _ _ _ _ (by simp [h2]), alookup_aset_ne _ _ _ _ (by simp [h1])]


theorem emit_ledger (s : Store) (ev : Event) : (emit s ev).ledger = s.ledger := rfl

theorem add_to_active_listings_ledger (s : Store) (a : Addr) :
    (SaleListingDataKey.add_to_active_listings s a).ledger = s.ledger := by
  unfold SaleListingDataKey.add_to_active_listings
  split <;> rfl

theorem save_listing_ledger (s : Store) (k : Addr) (a b : Int) (c : Addr) :
    (SaleListingDataKey.save_listing s k a b c).ledger = s.ledger := by
  unfold SaleListingDataKey.save_listing
  exact add_to_active_listings_ledger _ _

theorem add_to_active_listings_listings (s : Store) (a : Addr) :
    (SaleListingDataKey.add_to_active_listings s a).listings = s.listings := by
  unfold SaleListingDataKey.add_to_active_listings
  split <;> rfl

theorem save_listing_listings (s : Store) (k : Addr) (a b : Int) (c : Addr) :
    (SaleListingDataKey.save_listing s k a b c).listings = aset s.listings k ⟨k, a, b, c⟩ := by
  unfold SaleListingDataKey.save_listing
  exact add_to_active_listings_listings _ _

set_option maxRecDepth 2000 in
set_option maxHeartbeats 400000 in
/-- C8: buy_shares computes total = units x price with an explicit i128
overflow check, skims commission = floor(total x buyRateBps / 10000), pays the
seller total minus commission, rewrites a partially filled listing with the
reduced amount and unchanged price and payment token, removes a fully filled
listing, and reproduces Scenario D exactly. -/
theorem C8_buy_shares_computation :
    ((execute.buy_shares
        { emptyStore with
          config := some ⟨9, true⟩
          shareholders := [1, 2]
          shares := [(1, 8050), (2, 1950)]
          listings := [(1, ⟨1, 5000, 100000000, 60⟩)]
          activeListings := [1]
          commission := some ⟨5, 150, 50⟩
          ledger := [((3, 60), 1000000000000)] } 3 1 5000).1 = none ∧
      token_balance (execute.buy_shares
        { emptyStore with
          config := some ⟨9, true⟩
          shareholders := [1, 2]
          shares := [(1, 8050), (2, 1950)]
          listings := [(1, ⟨1, 5000, 100000000, 60⟩)]
          activeListings := [1]
          commission := some ⟨5, 150, 50⟩
          ledger := [((3, 60), 1000000000000)] } 3 1 5000).2 3 60
        = 1000000000000 - 500000000000 ∧
      token_balance (execute.buy_shares
        { emptyStore with
          config := some ⟨9, true⟩
          shareholders := [1, 2]
          shares := [(1, 8050), (2, 1950)]
          listings := [(1, ⟨1, 5000, 100000000, 60⟩)]
          activeListings := [1]
          commission := some ⟨5, 150, 50⟩
          ledger := [((3, 60), 1000000000000)] } 3 1 5000).2 1 60 = 492500000000 ∧
      token_balance (execute.buy_shares
        { emptyStore with
          config := some ⟨9, true⟩
          shareholders := [1, 2]
          shares := [(1, 8050), (2, 1950)]
          listings := [(1, ⟨1, 5000, 100000000, 60⟩)]
          activeListings := [1]
          commission := some ⟨5, 150, 50⟩
          ledger := [((3, 60), 1000000000000)] } 3 1 5000).2 5 60 = 7500000000 ∧
      SaleListingDataKey.get_listing (execute.buy_shares
        { emptyStore with
          config := some ⟨9, true⟩
          shareholders := [1, 2]
          shares := [(1, 8050), (2, 1950)]
          listings := [(1, ⟨1, 5000, 100000000, 60⟩)]
          activeListings := [1]
          commission := some ⟨5, 150, 50⟩
          ledger := [((3, 60), 1000000000000)] } 3 1 5000).2 1 = none) ∧
    (∀ (s : Store) (buyer seller : Addr) (amt : Int) (L : SaleListingDataKey),
      0 < amt → buyer ≠ seller → SaleListingDataKey.get_listing s seller = some L →
      ¬ amt > L.shares_for_sale → ¬ in_i128_range (amt * L.price_per_share) →
      execute.buy_shares s buyer seller amt = (some Error.Overflow, s)) ∧
    (∀ (s : Store) (buyer seller : Addr) (amt : Int) (L : SaleListingDataKey)
        (cfg : CommissionConfig) (seller_share : Int),
      0 < amt → buyer ≠ seller → SaleListingDataKey.get_listing s seller = some L →
      ¬ amt > L.shares_for_sale → in_i128_range (amt * L.price_per_share) →
      s.commission = some cfg →
      ShareDataKey.get_share s seller = some seller_share →
      cfg.recipient ≠ buyer → cfg.recipient ≠ seller →
      0 < L.price_per_share → 0 ≤ cfg.buy_rate_bps → cfg.buy_rate_bps ≤ 5000 →
      (execute.buy_shares s buyer seller amt).1 = none ∧
      token_balance (execute.buy_shares s buyer seller amt).2 buyer L.payment_token =
        token_balance s buyer L.payment_token - amt * L.price_per_share ∧
      token_balance (execute.buy_shares s buyer seller amt).2 seller L.payment_token =
        token_balance s seller L.payment_token + (amt * L.price_per_share -
          CommissionConfig.calculate_commission (amt * L.price_per_share)
            cfg.buy_rate_bps) ∧
      token_balance (execute.buy_shares s buyer seller amt).2 cfg.recipient
          L.payment_token =
        token_balance s cfg.recipient L.payment_token +
          CommissionConfig.calculate_commission (amt * L.price_per_share)
            cfg.buy_rate_bps ∧
      SaleListingDataKey.get_listing (execute.buy_shares s buyer seller amt).2 seller =
        (if L.shares_for_sale - amt > 0 then
          some ⟨seller, L.shares_for_sale - amt, L.price_per_share, L.payment_token⟩
        else none)) := by
  refine ⟨⟨by decide, by decide, by decide, by decide, by decide⟩, ?_, ?_⟩
  · intro s buyer seller amt L h1 h2 h3 h4 h5
    unfold execute.buy_shares
    rw [if_neg (by omega : ¬ amt ≤ 0), if_neg h2, h3]
    dsimp only
    rw [if_neg h4]
    have hck : checked_mul amt L.price_per_share = none := by
      unfold checked_mul
      rw [if_pos]
      unfold in_i128_range at h5
      push_neg at h5
      by_cases hlo : amt * L.price_per_share < I128_MIN
      · exact Or.inl hlo
      · push_neg at hlo
        exact Or.inr (by
          have := h5 hlo
          omega)
    rw [hck]
  · intro s buyer seller amt L cfg seller_share h1 h2 h3 h4 h5 hcom h9 hrb hrs hp hr0 hr5
    unfold execute.buy_shares
    rw [if_neg (by omega : ¬ amt ≤ 0), if_neg h2, h3]
    dsimp only
    rw [if_neg h4]
    have hck : checked_mul amt L.price_per_share = some (amt * L.price_per_share) := by
      unfold checked_mul
      rw [if_neg]
      unfold in_i128_range at h5
      push_neg
      omega
    rw [hck]
    dsimp only
    have hget : CommissionConfig.get s = (cfg, s) := by
      unfold CommissionConfig.get
      rw [hcom]
    rw [hget]
    dsimp only
    have htp : 0 < amt * L.price_per_share := by positivity
    have hc0 : 0 ≤ CommissionConfig.calculate_commission (amt * L.price_per_share)
        cfg.buy_rate_bps := calculate_commission_nonneg _ _ (by omega) hr0
    have hclt : CommissionConfig.calculate_commission (amt * L.price_per_share)
        cfg.buy_rate_bps < amt * L.price_per_share :=
      calculate_commission_lt _ _ htp hr0 hr5
    set tp := amt * L.price_per_share with htpdef
    set comm := CommissionConfig.calculate_commission tp cfg.buy_rate_bps with hcommdef
    rw [if_pos (by omega : tp - comm > 0)]
    set s1 := token_transfer s L.payment_token buyer seller (tp - comm) with hs1def
    set s2 := (if comm > 0 then
        token_transfer s1 L.payment_token buyer cfg.recipient comm
      else s1) with hs2def
    have hbal_buyer : token_balance s2 buyer L.payment_token =
        token_balance s buyer L.payment_token - tp := by
      rw [hs2def]
      by_cases hcp : comm > 0
      · rw [if_pos hcp, token_transfer_balance_sender s1 _ _ _ _ (Ne.symm hrb), hs1def,
          token_transfer_balance_sender s _ _ _ _ h2]
        ring
      · rw [if_neg hcp, hs1def, token_transfer_balance_sender s _ _ _ _ h2]
        have hcz : comm = 0 := by omega
        rw [hcz]
        ring
    have hbal_seller : token_balance s2 seller L.payment_token =
        token_balance s seller L.payment_token + (tp - comm) := by
      rw [hs2def]
      by_cases hcp : comm > 0
      · rw [if_pos hcp,
          token_transfer_balance_other s1 _ _ _ _ _ _ (Ne.symm h2) (Ne.symm hrs), hs1def]
        exact token_transfer_balance_recipient s _ _ _ _ h2
      · rw [if_neg hcp, hs1def]
        exact token_transfer_balance_recipient s _ _ _ _ h2
    have hbal_rec : token_balance s2 cfg.recipient L.payment_token =
        token_balance s cfg.recipient L.payment_token + comm := by
      rw [hs2def]
      by_cases hcp : comm > 0
      · rw [if_pos hcp, token_transfer_balance_recipient s1 _ _ _ _ (Ne.symm hrb), hs1def,
          token_transfer_balance_other s _ _ _ _ _ _ hrb hrs]
      · rw [if_neg hcp]
        have hcz : comm = 0 := by omega
        rw [hcz, hs1def, token_transfer_balance_other s _ _ _ _ _ _ hrb hrs]
        ring
    have hshare2 : ShareDataKey.get_share s2 seller = some seller_share := by
      rw [hs2def]
      by_cases hcp : comm > 0
      · rw [if_pos hcp]
        exact h9
      · rw [if_neg hcp]
        exact h9
    rw [hshare2]
    dsimp only
    by_cases h10 : seller_share - amt > 0 <;>
    [rw [if_pos h10]; rw [if_neg h10]] <;>
    (rcases h11 : ShareDataKey.get_share _ buyer with _ | buyer_share) <;>
    dsimp only <;>
    (by_cases h12 : L.shares_for_sale - amt > 0
     · simp only [if_pos h12]
       refine ⟨by trivial,
         (token_balance_congr _ s2 _ _ (by
           rw [emit_ledger, save_listing_ledger]; rfl)).trans hbal_buyer,
         (token_balance_congr _ s2 _ _ (by
           rw [emit_ledger, save_listing_ledger]; rfl)).trans hbal_seller,
         (token_balance_congr _ s2 _ _ (by
           rw [emit_ledger, save_listing_ledger]; rfl)).trans hbal_rec, ?_⟩
       show alookup (SaleListingDataKey.save_listing _ _ _ _ _).listings _ = _
       rw [save_listing_listings, alookup_aset_self]
     · simp only [if_neg h12]
       exact ⟨by trivial, hbal_buyer, hbal_seller, hbal_rec, alookup_aremove_self _ _⟩)

set_option maxRecDepth 4000 in
theorem C8_buy_shares_computation_witness :
    (0 : Int) < 1073741824 ∧
    execute.buy_shares
        { emptyStore with
          listings := [(1, ⟨1, 1073741824, 1267650600228229401496703205376, 60⟩)] }
        2 1 1073741824 =
      (some Error.Overflow,
        { emptyStore with
          listings := [(1, ⟨1, 1073741824, 1267650600228229401496703205376, 60⟩)] }) :=
  ⟨by decide,
    C8_buy_shares_computation.2.1 _ 2 1 1073741824
      ⟨1, 1073741824, 1267650600228229401496703205376, 60⟩
      (by decide) (by decide) rfl (by decide)
      (by unfold in_i128_range I128_MIN I128_MAX; decide)⟩

set_option maxRecDepth 10000 in
/-- C1: the claimed registry-total invariant is violated by the code. Starting
from a fresh store, init with two 5000-share holders, a listing of 4000 shares
by holder 2, a transfer of 2000 shares from holder 2 to holder 3, and then a
purchase of 4000 shares from holder 2 all succeed - buy_shares re-checks the
amount only against the listing, not against the seller's remaining registry
balance - and the sum of stored share records afterwards is 11000, not
10000. -/
theorem C1_share_total_invariant_violated :
    (execute.init emptyStore 9 [⟨2, 5000⟩, ⟨3, 5000⟩] true).1 = none ∧
    (execute.list_shares_for_sale (execute.init emptyStore 9 [⟨2, 5000⟩, ⟨3, 5000⟩] true).2 2 4000 1 60).1 = none ∧
    (execute.transfer_shares (execute.list_shares_for_sale (execute.init emptyStore 9 [⟨2, 5000⟩, ⟨3, 5000⟩] true).2 2 4000 1 60).2 2 3 2000).1 = none ∧
    (execute.buy_shares (execute.transfer_shares (execute.list_shares_for_sale (execute.init emptyStore 9 [⟨2, 5000⟩, ⟨3, 5000⟩] true).2 2 4000 1 60).2 2 3 2000).2 4 2 4000).1 = none ∧
    shareRecordsTotal (execute.transfer_shares (execute.list_shares_for_sale (execute.init emptyStore 9 [⟨2, 5000⟩, ⟨3, 5000⟩] true).2 2 4000 1 60).2 2 3 2000).2 = 10000 ∧
    shareRecordsTotal (execute.buy_shares (execute.transfer_shares (execute.list_shares_for_sale (execute.init emptyStore 9 [⟨2, 5000⟩, ⟨3, 5000⟩] true).2 2 4000 1 60).2 2 3 2000).2 4 2 4000).2 = 11000 :=
  ⟨by decide, by decide, by decide, by decide, by decide, by decide⟩

/-- C6 counterexample: init with a failing share validation reports
InvalidShareTotal yet persists the contract config, so the erroring operation
has written state. -/
theorem C6_error_paths_counterexample :
    (execute.init emptyStore 9 [⟨1, 5⟩] true).1 = some Error.InvalidShareTotal ∧
    (execute.init emptyStore 9 [⟨1, 5⟩] true).2.config = some ⟨9, true⟩ ∧
    (execute.init emptyStore 9 [⟨1, 5⟩] true).2 ≠ emptyStore :=
  ⟨by decide, by decide, by decide⟩

/-- C6 (amended): update_shares, transfer_shares, list_shares_for_sale,
cancel_listing, distribute_tokens and withdraw_allocation do validate before
mutating - an error leaves the store unchanged - but init persists the config
before running check_shares, so a failed init leaves the config written, and
buy_shares transfers the payment before reading the seller's share record, so
the NoSharesToSell error path has already moved the buyer's payment to the
seller. -/
theorem C6_error_paths_corrected :
    (∀ (s : Store) (shares : List ShareDataKey) (e : Error),
      (execute.update_shares s shares).1 = some e → (execute.update_shares s shares).2 = s) ∧
    (∀ (s : Store) (sender recipient : Addr) (amount : Int) (e : Error),
      (execute.transfer_shares s sender recipient amount).1 = some e →
      (execute.transfer_shares s sender recipient amount).2 = s) ∧
    (∀ (s : Store) (seller : Addr) (sa pp : Int) (pt : Addr) (e : Error),
      (execute.list_shares_for_sale s seller sa pp pt).1 = some e →
      (execute.list_shares_for_sale s seller sa pp pt).2 = s) ∧
    (∀ (s : Store) (seller : Addr) (e : Error),
      (execute.cancel_listing s seller).1 = some e →
      (execute.cancel_listing s seller).2 = s) ∧
    (∀ (s : Store) (tok : Addr) (e : Error),
      (execute.distribute_tokens s tok).1 = some e →
      (execute.distribute_tokens s tok).2 = s) ∧
    (∀ (s : Store) (tok sh : Addr) (amt : Int) (e : Error),
      (execute.withdraw_allocation s tok sh amt).1 = some e →
      (execute.withdraw_allocation s tok sh amt).2 = s) ∧
    (∀ (s : Store) (admin : Addr) (shares : List ShareDataKey) (mutFlag : Bool) (e : Error),
      s.config = none → helpers.check_shares shares = some e →
      execute.init s admin shares mutFlag =
        (some e, { s with config := some ⟨admin, mutFlag⟩ })) ∧
    (∀ (s : Store) (buyer seller : Addr) (amt : Int) (L : SaleListingDataKey)
        (cfg : CommissionConfig),
      0 < amt → buyer ≠ seller → SaleListingDataKey.get_listing s seller = some L →
      ¬ amt > L.shares_for_sale → in_i128_range (amt * L.price_per_share) →
      s.commission = some cfg → ShareDataKey.get_share s seller = none →
      cfg.recipient ≠ buyer → cfg.recipient ≠ seller →
      0 < L.price_per_share → 0 ≤ cfg.buy_rate_bps → cfg.buy_rate_bps ≤ 5000 →
      (execute.buy_shares s buyer seller amt).1 = some Error.NoSharesToSell ∧
      token_balance s seller L.payment_token <
        token_balance (execute.buy_shares s buyer seller amt).2 seller
          L.payment_token) := by
  refine ⟨?_, ?_, ?_, ?_, ?_, ?_, ?_, ?_⟩
  · intro s shares e h
    unfold execute.update_shares at h ⊢
    by_cases h1 : s.config.isNone = true
    · simp only [if_pos h1]
    · rw [if_neg h1] at h ⊢
      by_cases h2 : ¬ ConfigDataKey.is_contract_locked s = true
      · simp only [if_pos h2]
      · rw [if_neg h2] at h ⊢
        rcases h3 : helpers.check_shares shares with _ | e2
        · rw [h3] at h
          exact Option.noConfusion h
        · rfl
  · intro s sender recipient amount e h
    unfold execute.transfer_shares at h ⊢
    by_cases h1 : s.config.isNone = true
    · simp only [if_pos h1]
    · rw [if_neg h1] at h ⊢
      by_cases h2 : sender = recipient
      · simp only [if_pos h2]
      · rw [if_neg h2] at h ⊢
        by_cases h3 : amount ≤ 0
        · simp only [if_pos h3]
        · rw [if_neg h3] at h ⊢
          rcases h4 : ShareDataKey.get_share s sender with _ | sender_share
          · rfl
          · rw [h4] at h
            dsimp only at h ⊢
            by_cases h5 : sender_share < amount
            · simp only [if_pos h5]
            · rw [if_neg h5] at h
              exact Option.noConfusion h
  · intro s seller sa pp pt e h
    unfold execute.list_shares_for_sale at h ⊢
    by_cases h1 : sa ≤ 0
    · simp only [if_pos h1]
    · rw [if_neg h1] at h ⊢
      by_cases h2 : pp ≤ 0
      · simp only [if_pos h2]
      · rw [if_neg h2] at h ⊢
        rcases h3 : ShareDataKey.get_share s seller with _ | seller_share
        · rfl
        · rw [h3] at h
          dsimp only at h ⊢
          by_cases h4 : seller_share < sa
          · simp only [if_pos h4]
          · rw [if_neg h4] at h
            exact Option.noConfusion h
  · intro s seller e h
    unfold execute.cancel_listing at h ⊢
    rcases h1 : SaleListingDataKey.get_listing s seller with _ | L
    · rfl
    · rw [h1] at h
      exact Option.noConfusion h
  · intro s tok e h
    unfold execute.distribute_tokens at h ⊢
    by_cases h1 : s.config.isNone = true
    · simp only [if_pos h1]
    · rw [if_neg h1] at h
      dsimp only at h
      rw [apply_ite Prod.fst] at h
      dsimp only at h
      rw [apply_ite Prod.fst] at h
      dsimp only at h
      rw [ite_self, ite_self] at h
      exact Option.noConfusion h
  · intro s tok sh amt e h
    unfold execute.withdraw_allocation at h ⊢
    by_cases h1 : s.config.isNone = true
    · simp only [if_pos h1]
    · rw [if_neg h1] at h ⊢
      by_cases h2 : amt ≤ 0
      · simp only [if_pos h2]
      · rw [if_neg h2] at h ⊢
        dsimp only at h ⊢
        by_cases h3 : (AllocationDataKey.get_allocation s sh tok).getD 0 < amt
        · simp only [if_pos h3]
        · rw [if_neg h3] at h
          exact Option.noConfusion h
  · intro s admin shares mutFlag e hc hck
    unfold execute.init
    rw [if_neg (by simp [hc] : ¬ s.config.isSome = true), hck]
  · intro s buyer seller amt L cfg h1 h2 h3 h4 h5 hcom h9 hrb hrs hp hr0 hr5
    unfold execute.buy_shares
    rw [if_neg (by omega : ¬ amt ≤ 0), if_neg h2, h3]
    dsimp only
    rw [if_neg h4]
    have hck : checked_mul amt L.price_per_share = some (amt * L.price_per_share) := by
      unfold checked_mul
      rw [if_neg]
      unfold in_i128_range at h5
      push_neg
      omega
    rw [hck]
    dsimp only
    have hget : CommissionConfig.get s = (cfg, s) := by
      unfold CommissionConfig.get
      rw [hcom]
    rw [hget]
    dsimp only
    have htp : 0 < amt * L.price_per_share := by positivity
    have hc0 : 0 ≤ CommissionConfig.calculate_commission (amt * L.price_per_share)
        cfg.buy_rate_bps := calculate_commission_nonneg _ _ (by omega) hr0
    have hclt : CommissionConfig.calculate_commission (amt * L.price_per_share)
        cfg.buy_rate_bps < amt * L.price_per_share :=
      calculate_commission_lt _ _ htp hr0 hr5
    set tp := amt * L.price_per_share with htpdef
    set comm := CommissionConfig.calculate_commission tp cfg.buy_rate_bps with hcommdef
    rw [if_pos (by omega : tp - comm > 0)]
    set s1 := token_transfer s L.payment_token buyer seller (tp - comm) with hs1def
    set s2 := (if comm > 0 then
        token_transfer s1 L.payment_token buyer cfg.recipient comm
      else s1) with hs2def
    have hbal_seller : token_balance s2 seller L.payment_token =
        token_balance s seller L.payment_token + (tp - comm) := by
      rw [hs2def]
      by_cases hcp : comm > 0
      · rw [if_pos hcp,
          token_transfer_balance_other s1 _ _ _ _ _ _ (Ne.symm h2) (Ne.symm hrs), hs1def]
        exact token_transfer_balance_recipient s _ _ _ _ h2
      · rw [if_neg hcp, hs1def]
        exact token_transfer_balance_recipient s _ _ _ _ h2
    have hshare2 : ShareDataKey.get_share s2 seller = none := by
      rw [hs2def]
      by_cases hcp : comm > 0
      · rw [if_pos hcp]
        exact h9
      · rw [if_neg hcp]
        exact h9
    rw [hshare2]
    exact ⟨rfl, by rw [show token_balance _ seller L.payment_token =
      token_balance s2 seller L.payment_token from rfl, hbal_seller]; omega⟩

theorem C6_error_paths_corrected_witness :
    emptyStore.config = none ∧
    helpers.check_shares [⟨1, 5⟩] = some Error.InvalidShareTotal ∧
    execute.init emptyStore 9 [⟨1, 5⟩] true =
      (some Error.InvalidShareTotal,
        { emptyStore with config := some ⟨9, true⟩ }) :=
  ⟨rfl, by decide,
    C6_error_paths_corrected.2.2.2.2.2.2.1 emptyStore 9 [⟨1, 5⟩] true
      Error.InvalidShareTotal rfl (by decide)⟩

theorem add_to_active_listings_shares (s : Store) (a : Addr) :
    (SaleListingDataKey.add_to_active_listings s a).shares = s.shares := by
  unfold SaleListingDataKey.add_to_active_listings
  split <;> rfl

theorem save_listing_shares (s : Store) (k : Addr) (a b : Int) (c : Addr) :
    (SaleListingDataKey.save_listing s k a b c).shares = s.shares := by
  unfold SaleListingDataKey.save_listing
  exact add_to_active_listings_shares _ _

theorem add_to_active_listings_shareholders (s : Store) (a : Addr) :
    (SaleListingDataKey.add_to_active_listings s a).shareholders = s.shareholders := by
  unfold SaleListingDataKey.add_to_active_listings
  split <;> rfl

theorem save_listing_shareholders (s : Store) (k : Addr) (a b : Int) (c : Addr) :
    (SaleListingDataKey.save_listing s k a b c).shareholders = s.shareholders := by
  unfold SaleListingDataKey.save_listing
  exact add_to_active_listings_shareholders _ _

theorem fold_save_share_other (t : List ShareDataKey) (s : Store) (k : Addr)
    (hk : k ∉ t.map fun x => x.shareholder) :
    ShareDataKey.get_share
      (t.foldl (fun acc x => ShareDataKey.save_share acc x.shareholder x.share) s) k =
      ShareDataKey.get_share s k := by
  induction t generalizing s with
  | nil => rfl
  | cons x t ih =>
      simp only [List.map_cons, List.mem_cons, not_or] at hk
      rw [List.foldl_cons, ih _ hk.2]
      exact alookup_aset_ne _ _ _ _ hk.1

theorem fold_save_share_lookup (shares : List ShareDataKey) (s : Store) (r : ShareDataKey)
    (hmem : r ∈ shares) (hnd : (shares.map fun x => x.shareholder).Nodup) :
    ShareDataKey.get_share
      (shares.foldl (fun acc x => ShareDataKey.save_share acc x.shareholder x.share) s)
      r.shareholder = some r.share := by
  induction shares generalizing s with
  | nil => cases hmem
  | cons x t ih =>
      simp only [List.map_cons, List.nodup_cons] at hnd
      rcases List.mem_cons.mp hmem with rfl | hm
      · rw [List.foldl_cons, fold_save_share_other t _ _ hnd.1]
        exact alookup_aset_self _ _ _
      · exact ih _ hm hnd.2

/-- C7 counterexample: init accepts and persists a zero-amount share record -
check_shares rejects only negative amounts - so the no-zero-record invariant
fails right after a successful initialize. -/
theorem C7_zero_share_counterexample :
    (execute.init emptyStore 9 [⟨1, 0⟩, ⟨2, 10000⟩] true).1 = none ∧
    ShareDataKey.get_share (execute.init emptyStore 9 [⟨1, 0⟩, ⟨2, 10000⟩] true).2 1
      = some 0 :=
  ⟨by decide, by decide⟩

/-- C7 (amended): transfer_shares and buy_shares do remove a holder's record
and holder-order entry when the balance reaches zero, but initialize and
update_shares persist the submitted records verbatim - zero amounts included -
because check_shares rejects only negative amounts. -/
theorem C7_zero_share_records_corrected :
    (∀ (s : Store) (sender recipient : Addr) (amount : Int),
      ShareDataKey.get_share s sender = some amount →
      s.shareholders.Nodup →
      (execute.transfer_shares s sender recipient amount).1 = none →
      ShareDataKey.get_share (execute.transfer_shares s sender recipient amount).2 sender
        = none ∧
      sender ∉ (execute.transfer_shares s sender recipient amount).2.shareholders) ∧
    (∀ (s : Store) (buyer seller : Addr) (amt : Int) (L : SaleListingDataKey)
        (cfg : CommissionConfig),
      0 < amt → buyer ≠ seller → SaleListingDataKey.get_listing s seller = some L →
      ¬ amt > L.shares_for_sale → in_i128_range (amt * L.price_per_share) →
      s.commission = some cfg → ShareDataKey.get_share s seller = some amt →
      s.shareholders.Nodup →
      cfg.recipient ≠ buyer → cfg.recipient ≠ seller →
      0 < L.price_per_share → 0 ≤ cfg.buy_rate_bps → cfg.buy_rate_bps ≤ 5000 →
      ShareDataKey.get_share (execute.buy_shares s buyer seller amt).2 seller = none ∧
      seller ∉ (execute.buy_shares s buyer seller amt).2.shareholders) ∧
    (∀ (s : Store) (shares : List ShareDataKey) (r : ShareDataKey),
      r ∈ shares → (shares.map fun x => x.shareholder).Nodup →
      (execute.update_shares s shares).1 = none →
      ShareDataKey.get_share (execute.update_shares s shares).2 r.shareholder
        = some r.share) ∧
    helpers.check_shares [⟨1, 0⟩, ⟨2, 10000⟩] = none := by
  refine ⟨?_, ?_, ?_, by decide⟩
  · intro s sender recipient amount hsh hnd h
    unfold execute.transfer_shares at h ⊢
    by_cases h1 : s.config.isNone = true
    · rw [if_pos h1] at h
      exact Option.noConfusion h
    rw [if_neg h1] at h ⊢
    by_cases h2 : sender = recipient
    · rw [if_pos h2] at h
      exact Option.noConfusion h
    rw [if_neg h2] at h ⊢
    by_cases h3 : amount ≤ 0
    · rw [if_pos h3] at h
      exact Option.noConfusion h
    rw [if_neg h3] at h ⊢
    rw [hsh] at h ⊢
    dsimp only at h ⊢
    by_cases h4 : amount < amount
    · rw [if_pos h4] at h
      exact Option.noConfusion h
    rw [if_neg h4]
    rw [if_pos (by omega : amount - amount = 0)]
    by_cases hin : (ShareDataKey.get_share s recipient).isNone = true
    · rw [if_pos hin]
      constructor
      · show alookup (aset (aremove s.shares sender) recipient _) sender = none
        rw [alookup_aset_ne _ _ _ _ h2, alookup_aremove_self]
      · show sender ∉ remove_first s.shareholders sender ++ [recipient]
        intro hm
        rcases List.mem_append.mp hm with hm1 | hm1
        · exact remove_first_not_mem s.shareholders sender hnd hm1
        · rw [List.mem_singleton] at hm1
          exact h2 hm1
    · rw [if_neg hin]
      constructor
      · show alookup (aset (aremove s.shares sender) recipient _) sender = none
        rw [alookup_aset_ne _ _ _ _ h2, alookup_aremove_self]
      · exact remove_first_not_mem s.shareholders sender hnd
  · intro s buyer seller amt L cfg h1 h2 h3 h4 h5 hcom h9 hnd hrb hrs hp hr0 hr5
    unfold execute.buy_shares
    rw [if_neg (by omega : ¬ amt ≤ 0), if_neg h2, h3]
    dsimp only
    rw [if_neg h4]
    have hck : checked_mul amt L.price_per_share = some (amt * L.price_per_share) := by
      unfold checked_mul
      rw [if_neg]
      unfold in_i128_range at h5
      push_neg
      omega
    rw [hck]
    dsimp only
    have hget : CommissionConfig.get s = (cfg, s) := by
      unfold CommissionConfig.get
      rw [hcom]
    rw [hget]
    dsimp only
    have htp : 0 < amt * L.price_per_share := by positivity
    have hc0 : 0 ≤ CommissionConfig.calculate_commission (amt * L.price_per_share)
        cfg.buy_rate_bps := calculate_commission_nonneg _ _ (by omega) hr0
    have hclt : CommissionConfig.calculate_commission (amt * L.price_per_share)
        cfg.buy_rate_bps < amt * L.price_per_share :=
      calculate_commission_lt _ _ htp hr0 hr5
    set tp := amt * L.price_per_share with htpdef
    set comm := CommissionConfig.calculate_commission tp cfg.buy_rate_bps with hcommdef
    rw [if_pos (by omega : tp - comm > 0)]
    set s1 := token_transfer s L.payment_token buyer seller (tp - comm) with hs1def
    set s2 := (if comm > 0 then
        token_transfer s1 L.payment_token buyer cfg.recipient comm
      else s1) with hs2def
    have hshare2 : ShareDataKey.get_share s2 seller = some amt := by
      rw [hs2def]
      by_cases hcp : comm > 0
      · rw [if_pos hcp]
        exact h9
      · rw [if_neg hcp]
        exact h9
    have hsh2 : s2.shareholders = s.shareholders := by
      rw [hs2def]
      by_cases hcp : comm > 0
      · rw [if_pos hcp]
        rfl
      · rw [if_neg hcp]
        rfl
    rw [hshare2]
    dsimp only
    rw [if_neg (by omega : ¬ amt - amt > 0)]
    rcases h11 : ShareDataKey.get_share _ buyer with _ | b <;>
    dsimp only <;>
    (by_cases h12 : L.shares_for_sale - amt > 0
     · simp only [if_pos h12]
       constructor
       · show alookup (SaleListingDataKey.save_listing _ _ _ _ _).shares seller = none
         rw [save_listing_shares]
         show alookup (aset (aremove s2.shares seller) buyer _) seller = none
         rw [alookup_aset_ne _ _ _ _ (Ne.symm h2), alookup_aremove_self]
       · show seller ∉ (SaleListingDataKey.save_listing _ _ _ _ _).shareholders
         rw [save_listing_shareholders]
         first
           | (show seller ∉ remove_first s2.shareholders seller
              rw [hsh2]
              exact remove_first_not_mem _ _ hnd)
           | (show seller ∉ remove_first s2.shareholders seller ++ [buyer]
              rw [hsh2]
              intro hm
              rcases List.mem_append.mp hm with hm1 | hm1
              · exact remove_first_not_mem _ _ hnd hm1
              · rw [List.mem_singleton] at hm1
                exact (Ne.symm h2) hm1)
     · simp only [if_neg h12]
       constructor
       · show alookup (aset (aremove s2.shares seller) buyer _) seller = none
         rw [alookup_aset_ne _ _ _ _ (Ne.symm h2), alookup_aremove_self]
       · first
           | (show seller ∉ remove_first s2.shareholders seller
              rw [hsh2]
              exact remove_first_not_mem _ _ hnd)
           | (show seller ∉ remove_first s2.shareholders seller ++ [buyer]
              rw [hsh2]
              intro hm
              rcases List.mem_append.mp hm with hm1 | hm1
              · exact remove_first_not_mem _ _ hnd hm1
              · rw [List.mem_singleton] at hm1
                exact (Ne.symm h2) hm1))
  · intro s shares r hmem hnd h
    unfold execute.update_shares at h ⊢
    by_cases h1 : s.config.isNone = true
    · rw [if_pos h1] at h
      exact Option.noConfusion h
    rw [if_neg h1] at h ⊢
    by_cases h2 : ¬ ConfigDataKey.is_contract_locked s = true
    · rw [if_pos h2] at h
      exact Option.noConfusion h
    rw [if_neg h2] at h ⊢
    rcases h3 : helpers.check_shares shares with _ | e2
    · dsimp only
      exact fold_save_share_lookup shares _ r hmem hnd
    · rw [h3] at h
      exact Option.noConfusion h

theorem C7_zero_share_records_corrected_witness :
    ShareDataKey.get_share
        { emptyStore with
          config := some ⟨9, true⟩
          shareholders := [1, 2]
          shares := [(1, 4000), (2, 6000)] } 1 = some 4000 ∧
    List.Nodup [1, 2] ∧
    (execute.transfer_shares
        { emptyStore with
          config := some ⟨9, true⟩
          shareholders := [1, 2]
          shares := [(1, 4000), (2, 6000)] } 1 2 4000).1 = none ∧
    (ShareDataKey.get_share (execute.transfer_shares
        { emptyStore with
          config := some ⟨9, true⟩
          shareholders := [1, 2]
          shares := [(1, 4000), (2, 6000)] } 1 2 4000).2 1 = none ∧
      1 ∉ (execute.transfer_shares
        { emptyStore with
          config := some ⟨9, true⟩
          shareholders := [1, 2]
          shares := [(1, 4000), (2, 6000)] } 1 2 4000).2.shareholders) :=
  ⟨by decide, by decide, by decide,
    C7_zero_share_records_corrected.1 _ 1 2 4000 (by decide) (by decide) (by decide)⟩

set_option maxRecDepth 4000 in
/-- C10 counterexample: with an active listing, buyer distinct from seller,
and 0 < shares_amount <= the listing's remaining units, a seller without a
ShareRecord does not always produce NoSharesToSell - the overflow check runs
first, so an overflowing total price yields Overflow instead. -/
theorem C10_no_shares_error_counterexample :
    ShareDataKey.get_share
      { emptyStore with
        listings := [(1, ⟨1, 1073741824, 2535301200456458802993406410752, 60⟩)] } 1
      = none ∧
    SaleListingDataKey.get_listing
      { emptyStore with
        listings := [(1, ⟨1, 1073741824, 2535301200456458802993406410752, 60⟩)] } 1
      = some ⟨1, 1073741824, 2535301200456458802993406410752, 60⟩ ∧
    (execute.buy_shares
      { emptyStore with
        listings := [(1, ⟨1, 1073741824, 2535301200456458802993406410752, 60⟩)] }
      2 1 1073741824).1 = some Error.Overflow :=
  ⟨by decide, by decide, by decide⟩

/-- C10 (amended): under the stated conditions and additionally a total price
within i128 range - the overflow check precedes the seller-record read - a
seller with an active listing but no ShareRecord makes buy_shares return
NoSharesToSell. -/
theorem C10_no_shares_error_corrected :
    ∀ (s : Store) (buyer seller : Addr) (amt : Int) (L : SaleListingDataKey),
      0 < amt → buyer ≠ seller → SaleListingDataKey.get_listing s seller = some L →
      ¬ amt > L.shares_for_sale → in_i128_range (amt * L.price_per_share) →
      ShareDataKey.get_share s seller = none →
      (execute.buy_shares s buyer seller amt).1 = some Error.NoSharesToSell := by
  intro s buyer seller amt L h1 h2 h3 h4 h5 h9
  unfold execute.buy_shares
  rw [if_neg (by omega : ¬ amt ≤ 0), if_neg h2, h3]
  dsimp only
  rw [if_neg h4]
  have hck : checked_mul amt L.price_per_share = some (amt * L.price_per_share) := by
    unfold checked_mul
    rw [if_neg]
    unfold in_i128_range at h5
    push_neg
    omega
  rw [hck]
  dsimp only
  rcases hcs : CommissionConfig.get s with ⟨cfg, s0⟩
  have hs0 : s0.shares = s.shares := by
    unfold CommissionConfig.get at hcs
    rcases hcom : s.commission with _ | c
    · rw [hcom] at hcs
      cases hcs
      rfl
    · rw [hcom] at hcs
      cases hcs
      rfl
  dsimp only
  have h9' : ShareDataKey.get_share s0 seller = none := by
    unfold ShareDataKey.get_share
    rw [hs0]
    exact h9
  set comm := CommissionConfig.calculate_commission (amt * L.price_per_share)
    cfg.buy_rate_bps with hcommdef
  set sA := (if amt * L.price_per_share - comm > 0 then
      token_transfer s0 L.payment_token buyer seller (amt * L.price_per_share - comm)
    else s0) with hsAdef
  set s2 := (if comm > 0 then
      token_transfer sA L.payment_token buyer cfg.recipient comm
    else sA) with hs2def
  have hsA : ShareDataKey.get_share sA seller = none := by
    rw [hsAdef]
    by_cases hc1 : amt * L.price_per_share - comm > 0
    · rw [if_pos hc1]
      exact h9'
    · rw [if_neg hc1]
      exact h9'
  have hshare2 : ShareDataKey.get_share s2 seller = none := by
    rw [hs2def]
    by_cases hc2 : comm > 0
    · rw [if_pos hc2]
      exact hsA
    · rw [if_neg hc2]
      exact hsA
  rw [hshare2]

set_option maxRecDepth 4000 in
theorem C10_no_shares_error_corrected_witness :
    ShareDataKey.get_share { emptyStore with listings := [(1, ⟨1, 5, 7, 60⟩)] } 1
      = none ∧
    (execute.buy_shares { emptyStore with listings := [(1, ⟨1, 5, 7, 60⟩)] } 2 1 5).1
      = some Error.NoSharesToSell :=
  ⟨by decide,
    C10_no_shares_error_corrected _ 2 1 5 ⟨1, 5, 7, 60⟩ (by decide) (by decide) rfl
      (by decide) (by unfold in_i128_range I128_MIN I128_MAX; decide) (by decide)⟩

theorem C2_distribute_idempotent_witness :
    execute.distribute_tokens (execute.distribute_tokens
      { emptyStore with
        config := some ⟨9, true⟩
        shareholders := [1, 2]
        shares := [(1, 6000), (2, 4000)]
        commission := some ⟨5, 150, 50⟩
        ledger := [((0, 60), 1000)] } 60).2 60 =
      (none, (execute.distribute_tokens
        { emptyStore with
          config := some ⟨9, true⟩
          shareholders := [1, 2]
          shares := [(1, 6000), (2, 4000)]
          commission := some ⟨5, 150, 50⟩
          ledger := [((0, 60), 1000)] } 60).2) :=
  (C2_distribute_idempotent _ 60 ⟨9, true⟩ ⟨5, 150, 50⟩ rfl rfl (by decide) (by decide)
    (by decide) (by decide) (by decide) (by decide)).2.1

theorem C3_distribute_full_allocation_witness :
    AllocationDataKey.get_total_allocation (execute.distribute_tokens
      { emptyStore with
        config := some ⟨9, true⟩
        shareholders := [1, 2]
        shares := [(1, 6000), (2, 4000)]
        commission := some ⟨5, 150, 50⟩
        ledger := [((0, 60), 1000)] } 60).2 60 = some 995 :=
  ((C3_distribute_full_allocation _ 60 ⟨9, true⟩ ⟨5, 150, 50⟩ rfl rfl (by decide)
    (by decide) (by decide) (by decide) (by decide) (by decide)
    (by decide)).2.2.2).trans (by decide)

theorem C4_total_allocation_invariant_witness :
    StoreWF (execute.withdraw_allocation emptyStore 60 1 3).2 ∧
    allocInvariant (execute.withdraw_allocation emptyStore 60 1 3).2 60 :=
  ⟨(C4_total_allocation_invariant.2.2.2.1 emptyStore 60 1 3 ⟨(by decide), (by decide)⟩
      (fun t => ⟨(fun p hp hh => nomatch hp), rfl⟩)).1,
   (C4_total_allocation_invariant.2.2.2.1 emptyStore 60 1 3 ⟨(by decide), (by decide)⟩
      (fun t => ⟨(fun p hp hh => nomatch hp), rfl⟩)).2 60⟩

theorem C5_dust_first_largest_holder_witness :
    (execute.dist_loop 60 100
      { emptyStore with
        config := some ⟨9, true⟩
        shareholders := [1, 2, 3]
        shares := [(1, 3333), (2, 3333), (3, 3334)]
        commission := some ⟨5, 150, 0⟩
        ledger := [((0, 60), 100)] } [1, 2, 3] 0 none 0).2.2.1 =
      specDustRecipient (ShareDataKey.get_share
        { emptyStore with
          config := some ⟨9, true⟩
          shareholders := [1, 2, 3]
          shares := [(1, 3333), (2, 3333), (3, 3334)]
          commission := some ⟨5, 150, 0⟩
          ledger := [((0, 60), 100)] }) [1, 2, 3] :=
  (C5_dust_first_largest_holder
    { emptyStore with
      config := some ⟨9, true⟩
      shareholders := [1, 2, 3]
      shares := [(1, 3333), (2, 3333), (3, 3334)]
      commission := some ⟨5, 150, 0⟩
      ledger := [((0, 60), 100)] } 60 ⟨9, true⟩ ⟨5, 150, 0⟩ rfl rfl (by decide)
    (by decide) (by decide) (by decide) (by decide) (by decide) (by decide)).1 _ 60 100
    [1, 2, 3]

theorem C9_check_shares_validation_witness :
    (execute.update_shares { emptyStore with config := some ⟨9, true⟩ } [⟨1, 10000⟩]).1 =
      helpers.check_shares [⟨1, 10000⟩] :=
  C9_check_shares_validation.2.2.2 { emptyStore with config := some ⟨9, true⟩ }
    [⟨1, 10000⟩] ⟨9, true⟩ rfl rfl
